import Mathlib

/-! # The token stream of the L-lang compiler front end

A shallow embedding of `LumC/src/utils/Token.hh` and
`LumC/src/utils/TokenStream.{hh,cc}`.

* `std::vector<Token>` is a `List Token`; the vector member functions used by
  the stream (`insert`, `erase`) are the `vector*` functions below.
* `size_t` values are natural numbers; every arithmetic operation the source
  performs on a `size_t` is written with an explicit `% 2 ^ 64`.
* A member function that can throw returns an `Outcome` together with the
  state of the object after the call.
-/

namespace LumC

/-! ## Token -/

/-- The enumeration `Token::Type`. -/
inductive TokenType where
  | IDENTIFIER
  | NUMBER
  | FUNCTION
  | RETURN
  | PLUS
  | MINUS
  | MULTIPLY
  | DIVIDE
  | EQUAL
  | SEMICOLON
  | OPEN_PARENTHESIS
  | CLOSE_PARENTHESIS
  | OPEN_BRACE
  | CLOSE_BRACE
  | COMMA
  | END_OF_FILE
  deriving DecidableEq

/-- The class `Token`: the private members `_type`, `_value`, `_line` and
`_column`. -/
structure Token where
  type : TokenType
  value : String
  line : Nat
  column : Nat
  deriving DecidableEq

/-- The member `Token::operator==`: `_type == rhs._type && _value == rhs._value`. -/
def Token.opEq (a rhs : Token) : Bool :=
  a.type == rhs.type && a.value == rhs.value

/-! ## The parts of the standard library the stream relies on -/

/-- The number of values of `size_t` on the 64-bit target. -/
def SIZE_RANGE : Nat := 2 ^ 64

/-- Addition of two `size_t` values: `a + b`. -/
def sizeAdd (a b : Nat) : Nat := (a + b) % SIZE_RANGE

/-- Subtraction of two `size_t` values: `a - b`. -/
def sizeSub (a b : Nat) : Nat := (a + SIZE_RANGE - b % SIZE_RANGE) % SIZE_RANGE

/-- The call `v.insert(v.begin() + pos, x)` of `std::vector`, for `pos <= v.size()`. -/
def vectorInsert (v : List Token) (pos : Nat) (x : Token) : List Token :=
  v.take pos ++ x :: v.drop pos

/-- The call `v.insert(v.begin() + pos, xs.begin(), xs.end())` of `std::vector`,
for `pos <= v.size()`. -/
def vectorInsertRange (v : List Token) (pos : Nat) (xs : List Token) : List Token :=
  v.take pos ++ xs ++ v.drop pos

/-- The call `v.erase(v.begin() + pos)` of `std::vector`, for `pos < v.size()`. -/
def vectorErase (v : List Token) (pos : Nat) : List Token :=
  v.take pos ++ v.drop (pos + 1)

/-- The call `v.erase(v.begin() + first, v.begin() + last)` of `std::vector`, for
`first <= last <= v.size()`: the elements of `[first, last)` are removed. -/
def vectorEraseRange (v : List Token) (first last : Nat) : List Token :=
  v.take first ++ v.drop last

/-- The call `std::find(v.begin(), v.end(), token)`, as the distance of the
returned iterator from `v.begin()`; the distance `v.size()` is `v.end()`. The
comparison is `*it == token`, which is `Token::operator==`. -/
def find : List Token → Token → Nat
  | [], _ => 0
  | x :: xs, token => if x.opEq token then 0 else find xs token + 1

/-! ## TokenStream -/

/-- The exceptions the stream throws: `std::out_of_range` and
`std::invalid_argument`. Only the class of the exception is kept, not the text
handed to its constructor. -/
inductive Error where
  | outOfRange
  | invalidArgument
  deriving DecidableEq

/-- How a call ends: it returns a value, it throws, or it runs into a call of
`std::vector` outside that call's precondition, for which C++ defines no
behaviour. -/
inductive Outcome (α : Type) where
  | returns (a : α)
  | throws (e : Error)
  | undefined
  deriving DecidableEq

/-- Forget the returned value of a call but keep, for a returned token, the token. -/
def Outcome.map {α β : Type} (f : α → β) : Outcome α → Outcome β
  | .returns a => .returns (f a)
  | .throws e => .throws e
  | .undefined => .undefined

/-- The class `TokenStream`: the private members `_tokens` and `_index`. -/
structure TokenStream where
  tokens : List Token
  index : Nat
  deriving DecidableEq

/-- The outcome of a member function call and the object after the call. After
`Outcome.undefined` the second component carries no information. -/
abbrev Result (α : Type) : Type := Outcome α × TokenStream

namespace TokenStream

/-- The default constructor `TokenStream()`. -/
def init : TokenStream := { tokens := [], index := 0 }

/-- The constructor `TokenStream(std::vector<Token> tokens)`; `_index` keeps its
default member initialiser `0`. -/
def ofTokens (tokens : List Token) : TokenStream := { tokens := tokens, index := 0 }

/-- The member `eof`: `_index >= _tokens.size()`. -/
def eof (s : TokenStream) : Bool := decide (s.index ≥ s.tokens.length)

/-- The member `clear`: `_tokens.clear(); _index = 0;`. -/
def clear (_s : TokenStream) : Result Unit :=
  (.returns (), { tokens := [], index := 0 })

/-- The member `size`: `_tokens.size()`. -/
def size (s : TokenStream) : Nat := s.tokens.length

/-- The member `empty`: `_tokens.empty()`. -/
def empty (s : TokenStream) : Bool := s.tokens.isEmpty

/-- The member `peek`. -/
def peek (s : TokenStream) (lookahead : Nat) : Result Token :=
  if h : sizeAdd s.index lookahead ≥ s.tokens.length then
    (.throws .outOfRange, s)
  else
    (.returns (s.tokens.get ⟨sizeAdd s.index lookahead, Nat.lt_of_not_ge h⟩), s)

/-- The member `consume`: the token at `_index` is returned and `_index` is
incremented. -/
def consume (s : TokenStream) : Result Token :=
  if h : s.index ≥ s.tokens.length then
    (.throws .outOfRange, s)
  else
    (.returns (s.tokens.get ⟨s.index, Nat.lt_of_not_ge h⟩),
      { s with index := sizeAdd s.index 1 })

/-- The member `rewind`: `_index = (steps > _index) ? 0 : _index - steps`. -/
def rewind (s : TokenStream) (steps : Nat) : Result Unit :=
  (.returns (), { s with index := if steps > s.index then 0 else sizeSub s.index steps })

/-- The member `rewindTo`. -/
def rewindTo (s : TokenStream) (index : Nat) : Result Unit :=
  if index ≥ s.tokens.length then
    (.throws .outOfRange, s)
  else
    (.returns (), { s with index := index })

/-- The member `advance`: `_index = std::min(_index + steps, _tokens.size())`. -/
def advance (s : TokenStream) (steps : Nat) : Result Unit :=
  (.returns (), { s with index := min (sizeAdd s.index steps) s.tokens.length })

/-- The member `advanceTo`. -/
def advanceTo (s : TokenStream) (index : Nat) : Result Unit :=
  if index ≥ s.tokens.length then
    (.throws .outOfRange, s)
  else
    (.returns (), { s with index := index })

/-- The member `push(const Token &)`: `_tokens.push_back(token)`. -/
def push (s : TokenStream) (token : Token) : Result Unit :=
  (.returns (), { s with tokens := s.tokens ++ [token] })

/-- The member `push(const std::vector<Token> &)`: the tokens are inserted at
`_tokens.end()`. -/
def pushAll (s : TokenStream) (tokens : List Token) : Result Unit :=
  (.returns (), { s with tokens := vectorInsertRange s.tokens s.tokens.length tokens })

/-- The member `insert(size_t, const Token &)`. -/
def insert (s : TokenStream) (index : Nat) (token : Token) : Result Unit :=
  if index ≥ s.tokens.length then
    (.throws .outOfRange, s)
  else
    (.returns (), { s with tokens := vectorInsert s.tokens index token })

/-- The member `insert(size_t, const std::vector<Token> &)`. -/
def insertAll (s : TokenStream) (index : Nat) (tokens : List Token) : Result Unit :=
  if index ≥ s.tokens.length then
    (.throws .outOfRange, s)
  else
    (.returns (), { s with tokens := vectorInsertRange s.tokens index tokens })

/-- The member `erase(size_t)`. -/
def erase (s : TokenStream) (index : Nat) : Result Unit :=
  if index ≥ s.tokens.length then
    (.throws .outOfRange, s)
  else
    (.returns (), { s with tokens := vectorErase s.tokens index })

/-- The member `erase(size_t, size_t)`: after the bounds check the tokens of
`[begin + start, begin + end + 1)` are erased, which `std::vector` defines only
when `start <= end + 1`. -/
def eraseRange (s : TokenStream) (start stop : Nat) : Result Unit :=
  if start ≥ s.tokens.length ∨ stop ≥ s.tokens.length then
    (.throws .outOfRange, s)
  else if start > stop + 1 then
    (.undefined, s)
  else
    (.returns (), { s with tokens := vectorEraseRange s.tokens start (stop + 1) })

/-- The member `erase(const Token &)`. -/
def eraseToken (s : TokenStream) (token : Token) : Result Unit :=
  if find s.tokens token = s.tokens.length then
    (.throws .outOfRange, s)
  else
    (.returns (), { s with tokens := vectorErase s.tokens (find s.tokens token) })

/-- The member `replace(size_t, const Token &)`: `_tokens[index] = token`. -/
def replace (s : TokenStream) (index : Nat) (token : Token) : Result Unit :=
  if index ≥ s.tokens.length then
    (.throws .outOfRange, s)
  else
    (.returns (), { s with tokens := s.tokens.set index token })

/-- The member `replace(const Token &, const Token &)`: `*it = newToken`. -/
def replaceToken (s : TokenStream) (oldToken newToken : Token) : Result Unit :=
  if find s.tokens oldToken = s.tokens.length then
    (.throws .invalidArgument, s)
  else
    (.returns (), { s with tokens := s.tokens.set (find s.tokens oldToken) newToken })

/-- The member `at(size_t)` (both overloads have the same body). -/
def tokenAt (s : TokenStream) (index : Nat) : Result Token :=
  if h : index ≥ s.tokens.length then
    (.throws .outOfRange, s)
  else
    (.returns (s.tokens.get ⟨index, Nat.lt_of_not_ge h⟩), s)

/-- The member `operator[]` (both overloads have the same body): `_tokens[index]`,
which `std::vector` defines only for `index < size()`. -/
def opIndex (s : TokenStream) (index : Nat) : Result Token :=
  if h : index < s.tokens.length then
    (.returns (s.tokens.get ⟨index, h⟩), s)
  else
    (.undefined, s)

/-- The class `TokenStream::iterator`: the member `_index`. The member `_stream`
points to the stream the view was taken from; the members that follow the
pointer take that stream as an argument. -/
structure iterator where
  index : Nat
  deriving DecidableEq

/-- The member `begin`: `iterator(this, 0)`. -/
def begin (_s : TokenStream) : iterator := { index := 0 }

/-- The member `end`: `iterator(this, size())`. -/
def endIt (s : TokenStream) : iterator := { index := s.size }

namespace iterator

/-- The member `operator++()`: `++_index`. -/
def inc (it : iterator) : iterator := { index := sizeAdd it.index 1 }

/-- The member `operator++(int)`: the view before the step is returned (first
component) and `_index` is incremented (second component). -/
def postInc (it : iterator) : iterator × iterator := (it, { index := sizeAdd it.index 1 })

/-- The member `operator--()`: `--_index`. -/
def dec (it : iterator) : iterator := { index := sizeSub it.index 1 }

/-- The member `operator--(int)`: the view before the step is returned (first
component) and `_index` is decremented (second component). -/
def postDec (it : iterator) : iterator × iterator := (it, { index := sizeSub it.index 1 })

/-- The member `operator+=`: `_index += steps`. -/
def addAssign (it : iterator) (steps : Nat) : iterator := { index := sizeAdd it.index steps }

/-- The member `operator-=`: `_index -= steps`. -/
def subAssign (it : iterator) (steps : Nat) : iterator := { index := sizeSub it.index steps }

/-- The members `operator*` and `operator->`: `_stream->at(_index)`. -/
def deref (it : iterator) (stream : TokenStream) : Result Token :=
  stream.tokenAt it.index

/-- The member `operator==`: `_index == rhs._index`. -/
def opEq (it rhs : iterator) : Bool := decide (it.index = rhs.index)

/-- The member `operator!=`: `_index != rhs._index`. -/
def opNe (it rhs : iterator) : Bool := decide (it.index ≠ rhs.index)

end iterator

end TokenStream

/-! ## The public operations as data -/

/-- A call of one public, state-dependent member function of `TokenStream`,
with its arguments. -/
inductive Op where
  | consume
  | peek (lookahead : Nat)
  | rewind (steps : Nat)
  | rewindTo (index : Nat)
  | advance (steps : Nat)
  | advanceTo (index : Nat)
  | push (token : Token)
  | pushAll (tokens : List Token)
  | insert (index : Nat) (token : Token)
  | insertAll (index : Nat) (tokens : List Token)
  | erase (index : Nat)
  | eraseRange (start stop : Nat)
  | eraseToken (token : Token)
  | replace (index : Nat) (token : Token)
  | replaceToken (oldToken newToken : Token)
  | clear
  | tokenAt (index : Nat)

/-- The three overloads of `erase`. -/
def Op.isErase : Op → Bool
  | .erase _ => true
  | .eraseRange _ _ => true
  | .eraseToken _ => true
  | _ => false

/-- Run a call on a stream: the outcome (with the returned token, if the member
function returns one) and the stream after the call. -/
def Op.exec (op : Op) (s : TokenStream) : Result (Option Token) :=
  match op with
  | .consume => (s.consume.1.map some, s.consume.2)
  | .peek lookahead => ((s.peek lookahead).1.map some, (s.peek lookahead).2)
  | .rewind steps => ((s.rewind steps).1.map fun _ => none, (s.rewind steps).2)
  | .rewindTo index => ((s.rewindTo index).1.map fun _ => none, (s.rewindTo index).2)
  | .advance steps => ((s.advance steps).1.map fun _ => none, (s.advance steps).2)
  | .advanceTo index => ((s.advanceTo index).1.map fun _ => none, (s.advanceTo index).2)
  | .push token => ((s.push token).1.map fun _ => none, (s.push token).2)
  | .pushAll tokens => ((s.pushAll tokens).1.map fun _ => none, (s.pushAll tokens).2)
  | .insert index token =>
      ((s.insert index token).1.map fun _ => none, (s.insert index token).2)
  | .insertAll index tokens =>
      ((s.insertAll index tokens).1.map fun _ => none, (s.insertAll index tokens).2)
  | .erase index => ((s.erase index).1.map fun _ => none, (s.erase index).2)
  | .eraseRange start stop =>
      ((s.eraseRange start stop).1.map fun _ => none, (s.eraseRange start stop).2)
  | .eraseToken token => ((s.eraseToken token).1.map fun _ => none, (s.eraseToken token).2)
  | .replace index token =>
      ((s.replace index token).1.map fun _ => none, (s.replace index token).2)
  | .replaceToken oldToken newToken =>
      ((s.replaceToken oldToken newToken).1.map fun _ => none,
        (s.replaceToken oldToken newToken).2)
  | .clear => (s.clear.1.map fun _ => none, s.clear.2)
  | .tokenAt index => ((s.tokenAt index).1.map some, (s.tokenAt index).2)

/-- The structural edits: both `push`, both `insert`, the three `erase` and
both `replace` overloads. -/
def Op.isStructural : Op → Bool
  | .push _ => true
  | .pushAll _ => true
  | .insert _ _ => true
  | .insertAll _ _ => true
  | .erase _ => true
  | .eraseRange _ _ => true
  | .eraseToken _ => true
  | .replace _ _ => true
  | .replaceToken _ _ => true
  | _ => false

/-! ## Sequences of calls -/

/-- The calls `push(t)` for each `t` of `tokens`, from the first to the last:
the stream after the last call. -/
def pushEach (s : TokenStream) (tokens : List Token) : TokenStream :=
  tokens.foldl (fun acc t => (acc.push t).2) s

/-- The first `n` successive calls of `consume()`: the outcomes in the order
of the calls, and the stream after the last call. -/
def consumeMany : Nat → TokenStream → List (Outcome Token) × TokenStream
  | 0, s => ([], s)
  | n + 1, s => (s.consume.1 :: (consumeMany n s.consume.2).1, (consumeMany n s.consume.2).2)

/-- The values of `eof()` read just before each of `n` successive calls of
`consume()`. -/
def eofBeforeEach : Nat → TokenStream → List Bool
  | 0, _ => []
  | n + 1, s => s.eof :: eofBeforeEach n s.consume.2

/-- The loop `for (it = ...; it != end(); ++it) *it`, started at the view `it`
and run for at most `fuel` tests of its condition: the outcomes of the
dereferences in order, or `none` when the loop is still running once the fuel
is used up. -/
def traverse : Nat → TokenStream → TokenStream.iterator → Option (List (Outcome Token))
  | 0, _, _ => none
  | fuel + 1, s, it =>
    if it.opNe s.endIt then
      (traverse fuel s it.inc).map fun rest => (it.deref s).1 :: rest
    else
      some []

/-! ## Streams used as concrete inputs -/

/-- The token `Token(Token::Type::IDENTIFIER, "x")` of the test suite. -/
def tokX : Token := { type := .IDENTIFIER, value := "x", line := 0, column := 0 }

/-- The token `Token(Token::Type::NUMBER, "42")` of the test suite. -/
def tok42 : Token := { type := .NUMBER, value := "42", line := 0, column := 0 }

/-- The token `Token(Token::Type::IDENTIFIER, "y")` of the test suite. -/
def tokY : Token := { type := .IDENTIFIER, value := "y", line := 0, column := 0 }

/-- The stream holding `x 42` with the cursor on `42`. -/
def streamX42At1 : TokenStream := { tokens := [tokX, tok42], index := 1 }

/-- The stream holding `x` with the cursor at the end. -/
def streamXAtEnd : TokenStream := { tokens := [tokX], index := 1 }

/-- The stream holding `x 42 y` with the cursor at 0, as built in the tests
`EraseRange` and `ReplaceOldToken`. -/
def streamX42Y : TokenStream := { tokens := [tokX, tok42, tokY], index := 0 }

/-- The stream holding `x x` with the cursor at 0. -/
def streamXX : TokenStream := { tokens := [tokX, tokX], index := 0 }

/-- The stream holding `x` with the cursor at 0. -/
def streamXAt0 : TokenStream := { tokens := [tokX], index := 0 }

end LumC

/-! ## The earlier variant of the stream

The class `TokenStream` of `src/TokenStream.cc` and `include/TokenStream.hh`.
Its `Token.hh` is not among the sources; the range operations below move and
copy tokens without looking into them, and the token type of the LumC variant
stands for it. -/

namespace Legacy

open LumC

/-- The class `TokenStream` of the earlier variant: the private members
`_tokens` and `_index`. -/
structure TokenStream where
  tokens : List Token
  index : Nat
  deriving DecidableEq

/-- What a parameter `const Token &token` is bound to when a member is called:
a token object that is not stored in the stream, or the element of `_tokens` at
a position, as the references returned by `operator[]`, `at`, `peek` and
`consume` are. -/
inductive TokenArg where
  | object (t : Token)
  | element (position : Nat)
  deriving DecidableEq

/-- The token read through a `const Token &` argument while the vector holds
`v`. An object outside the stream reads as itself. A reference to an element
reads the slot at its position, which holds a token as long as the position is
below `v.size()`; past that the slot holds no element and the read has no
defined result (`none`). -/
def TokenArg.read (v : List Token) : TokenArg → Option Token
  | .object t => some t
  | .element position => v[position]?

namespace TokenStream

/-- The member `size`: `_tokens.size()`. -/
def size (s : TokenStream) : Nat := s.tokens.length

/-- The member `erase(size_t, size_t)` of the earlier variant: after the bounds
check the tokens of `[begin + start, begin + end)` are erased, which
`std::vector` defines only when `start <= end`. -/
def eraseRange (s : TokenStream) (start stop : Nat) : Outcome Unit × TokenStream :=
  if start ≥ s.tokens.length ∨ stop ≥ s.tokens.length then
    (.throws .outOfRange, s)
  else if start > stop then
    (.undefined, s)
  else
    (.returns (), { s with tokens := vectorEraseRange s.tokens start stop })

/-- The member `replace(size_t, size_t, const Token &)`: after the bounds check
the tokens of `[begin + start, begin + end)` are erased, which `std::vector`
defines only when `start <= end`, and then `_tokens.insert(begin + start,
token)` is called. The argument is a reference and is read by that second call,
after the erase: `erase` moves the later elements down within the same storage,
so a reference to an element at or after `start` reads the element that was
moved into its slot (the standard calls such a reference invalidated), and
reads nothing defined when its slot is past the new end. `std::vector::insert`
copies the token it is given before it moves elements. -/
def replaceRange (s : TokenStream) (start stop : Nat) (token : TokenArg) :
    Outcome Unit × TokenStream :=
  if start ≥ s.tokens.length ∨ stop ≥ s.tokens.length then
    (.throws .outOfRange, s)
  else if start > stop then
    (.undefined, s)
  else
    match token.read (vectorEraseRange s.tokens start stop) with
    | none => (.undefined, s)
    | some t =>
      (.returns (),
        { s with tokens := vectorInsert (vectorEraseRange s.tokens start stop) start t })

end TokenStream

/-- The stream of the earlier variant holding `x 42 y` with the cursor at 0. -/
def streamX42Y : TokenStream := { tokens := [tokX, tok42, tokY], index := 0 }

end Legacy

/-! ## Arithmetic on `size_t` and the vector operations -/

namespace LumC

theorem sizeAdd_le (a b : Nat) : sizeAdd a b ≤ a + b := by
  unfold sizeAdd
  exact Nat.mod_le _ _

theorem sizeAdd_of_lt {a b : Nat} (h : a + b < SIZE_RANGE) : sizeAdd a b = a + b := by
  unfold sizeAdd
  exact Nat.mod_eq_of_lt h

theorem sizeSub_of_le {a b : Nat} (hb : b ≤ a) (ha : a < SIZE_RANGE) :
    sizeSub a b = a - b := by
  unfold sizeSub
  have hb' : b % SIZE_RANGE = b := Nat.mod_eq_of_lt (by omega)
  rw [hb']
  have h : a + SIZE_RANGE - b = (a - b) + SIZE_RANGE := by omega
  rw [h, Nat.add_mod_right]
  exact Nat.mod_eq_of_lt (by omega)

theorem sizeSub_le_of_le {a b : Nat} (hb : b ≤ a) : sizeSub a b ≤ a := by
  unfold sizeSub
  have hb' : b % SIZE_RANGE ≤ a := Nat.le_trans (Nat.mod_le _ _) hb
  have h : a + SIZE_RANGE - b % SIZE_RANGE = (a - b % SIZE_RANGE) + SIZE_RANGE := by omega
  rw [h, Nat.add_mod_right]
  exact Nat.le_trans (Nat.mod_le _ _) (Nat.sub_le _ _)

theorem length_vectorInsert (v : List Token) (pos : Nat) (x : Token) (h : pos ≤ v.length) :
    (vectorInsert v pos x).length = v.length + 1 := by
  simp [vectorInsert]
  omega

theorem getElem?_vectorInsert_lt (v : List Token) (pos : Nat) (x : Token) (j : Nat)
    (hj : j < pos) (h : pos ≤ v.length) : (vectorInsert v pos x)[j]? = v[j]? := by
  unfold vectorInsert
  rw [List.getElem?_append_left (by simp; omega)]
  simp [List.getElem?_take, hj]

theorem getElem?_vectorInsert_self (v : List Token) (pos : Nat) (x : Token)
    (h : pos ≤ v.length) : (vectorInsert v pos x)[pos]? = some x := by
  unfold vectorInsert
  rw [List.getElem?_append_right (by simp)]
  simp [Nat.min_eq_left h]

theorem getElem?_vectorInsert_ge (v : List Token) (pos : Nat) (x : Token) (j : Nat)
    (hj : pos ≤ j) (h : pos ≤ v.length) : (vectorInsert v pos x)[j + 1]? = v[j]? := by
  unfold vectorInsert
  rw [List.getElem?_append_right (by simp; omega)]
  have h1 : j + 1 - (List.take pos v).length = (j - pos) + 1 := by
    simp [Nat.min_eq_left h]; omega
  rw [h1]
  simp
  congr 1
  omega

theorem length_vectorErase (v : List Token) (pos : Nat) (h : pos < v.length) :
    (vectorErase v pos).length + 1 = v.length := by
  simp [vectorErase]
  omega

theorem vectorErase_eq_eraseIdx (v : List Token) (pos : Nat) :
    vectorErase v pos = v.eraseIdx pos := by
  unfold vectorErase
  induction v generalizing pos with
  | nil => simp
  | cons a v ih =>
    cases pos with
    | zero => simp
    | succ n => simpa using ih n

theorem getElem?_vectorErase_lt (v : List Token) (pos j : Nat) (hj : j < pos) :
    (vectorErase v pos)[j]? = v[j]? := by
  rw [vectorErase_eq_eraseIdx, List.getElem?_eraseIdx]
  simp [hj]

theorem getElem?_vectorErase_ge (v : List Token) (pos j : Nat) (hj : pos ≤ j) :
    (vectorErase v pos)[j]? = v[j + 1]? := by
  rw [vectorErase_eq_eraseIdx, List.getElem?_eraseIdx]
  have : ¬ j < pos := by omega
  simp [this]

theorem TokenStream.tokenAt_of_getElem? (s : TokenStream) (i : Nat) (t : Token)
    (h : s.tokens[i]? = some t) : s.tokenAt i = (.returns t, s) := by
  unfold TokenStream.tokenAt
  have hi : i < s.tokens.length := by
    by_contra hc
    rw [List.getElem?_eq_none (by omega)] at h
    exact absurd h (by simp)
  rw [dif_neg (by omega)]
  rw [List.getElem?_eq_getElem hi] at h
  simp only [List.get_eq_getElem]
  injection h with h
  rw [h]

end LumC

/-! ## The cursor invariant and the cursor operations -/

namespace LumC

open TokenStream

/-- C1, as stated, fails: on the stream holding the single token `x` with the
cursor at the end (so `cursor <= size()`), `erase(0)` succeeds and leaves the
cursor at 1 while `size()` has become 0. -/
theorem C1_erase_breaks_cursor_invariant :
    streamXAtEnd.index ≤ streamXAtEnd.size ∧
    ((Op.erase 0).exec streamXAtEnd).1 = .returns none ∧
    ¬ ((Op.erase 0).exec streamXAtEnd).2.index ≤ ((Op.erase 0).exec streamXAtEnd).2.size := by
  decide

/-- C1, amended: from a state with `cursor <= size()`, every public operation
that is not an `erase`, and every call that throws, ends in a state with
`cursor <= size()`; an `erase` (by index, range or value) never moves the
cursor. -/
theorem C1_cursor_invariant_outside_erase (s : TokenStream) (op : Op)
    (hinv : s.index ≤ s.size) :
    ((op.isErase = false ∨ ∃ e, (op.exec s).1 = .throws e) →
      (op.exec s).2.index ≤ (op.exec s).2.size) ∧
    (op.isErase = true → (op.exec s).2.index = s.index) := by
  unfold TokenStream.size at *
  have hadd : sizeAdd s.index 1 ≤ s.index + 1 := sizeAdd_le _ _
  have hsub : ∀ steps, steps ≤ s.index → sizeSub s.index steps ≤ s.index :=
    fun _ h => sizeSub_le_of_le h
  cases op <;>
    simp only [Op.exec, Op.isErase, TokenStream.consume, TokenStream.peek,
      TokenStream.rewind, TokenStream.rewindTo, TokenStream.advance,
      TokenStream.advanceTo, TokenStream.push, TokenStream.pushAll, TokenStream.insert,
      TokenStream.insertAll, TokenStream.erase, TokenStream.eraseRange,
      TokenStream.eraseToken, TokenStream.replace, TokenStream.replaceToken,
      TokenStream.clear, TokenStream.tokenAt, vectorInsert, vectorInsertRange] <;>
    refine ⟨fun hop => ?_, fun _ => ?_⟩ <;>
    (try split) <;> (try split) <;>
    simp_all [Outcome.map] <;>
    first
      | omega
      | exact Nat.le_trans (hsub _ (by assumption)) hinv

/-- C1, amended, at a concrete input: `consume` on the stream `x 42` with the
cursor on `42` moves the cursor to 2, which is `size()`. -/
theorem C1_cursor_invariant_outside_erase_witness :
    streamX42At1.index ≤ streamX42At1.size ∧
    (Op.consume.exec streamX42At1).2.index ≤ (Op.consume.exec streamX42At1).2.size :=
  ⟨by decide,
    (C1_cursor_invariant_outside_erase streamX42At1 Op.consume (by decide)).1 (Or.inl rfl)⟩

/-- C2: `consume` returns `tokens[cursor]` and moves the cursor one step when
`cursor < size()`, throws `std::out_of_range` and changes nothing when
`cursor >= size()`, and throws exactly in the second case. The number of tokens
of a vector is a `size_t`. -/
theorem C2_consume_spec (s : TokenStream) (hsize : s.size < SIZE_RANGE) :
    (∀ h : s.index < s.size,
      s.consume = (.returns (s.tokens.get ⟨s.index, h⟩), { s with index := s.index + 1 })) ∧
    (s.index ≥ s.size → s.consume = (.throws .outOfRange, s)) ∧
    ((∃ e, s.consume.1 = .throws e) ↔ s.index ≥ s.size) := by
  unfold TokenStream.size at *
  refine ⟨fun h => ?_, fun h => ?_, ?_⟩
  · unfold TokenStream.consume
    rw [dif_neg (by omega), sizeAdd_of_lt (by omega)]
  · unfold TokenStream.consume
    rw [dif_pos h]
  · unfold TokenStream.consume
    by_cases h : s.index ≥ s.tokens.length
    · rw [dif_pos h]
      exact ⟨fun _ => h, fun _ => ⟨.outOfRange, rfl⟩⟩
    · rw [dif_neg h]
      constructor
      · rintro ⟨e, he⟩
        exact absurd he (by simp)
      · intro h'
        exact absurd h' h

/-- C2 at concrete inputs: on `x 42` with the cursor on `42`, `consume` returns
`42` and moves the cursor to 2; on `x` with the cursor at the end it throws. -/
theorem C2_consume_spec_witness :
    streamX42At1.consume = (.returns tok42, { streamX42At1 with index := 2 }) ∧
    streamXAtEnd.consume = (.throws .outOfRange, streamXAtEnd) :=
  ⟨(C2_consume_spec streamX42At1 (by decide)).1 (by decide),
    (C2_consume_spec streamXAtEnd (by decide)).2.1 (by decide)⟩

/-- C3: when `cursor + lookahead < size()` and the sum does not overflow a
`size_t`, `peek(lookahead)` returns `tokens[cursor + lookahead]` and changes
neither the cursor nor the tokens; `peek(0)` then returns the token that
`consume()` returns. -/
theorem C3_peek_spec (s : TokenStream) (lookahead : Nat)
    (hin : s.index + lookahead < s.size) (hno : s.index + lookahead < SIZE_RANGE) :
    s.peek lookahead = (.returns (s.tokens.get ⟨s.index + lookahead, hin⟩), s) ∧
    (s.peek 0).1 = s.consume.1 ∧
    (s.peek 0).1 = .returns (s.tokens.get ⟨s.index, by unfold TokenStream.size at hin; omega⟩) ∧
    (s.peek 0).2 = s := by
  unfold TokenStream.size at hin
  have h0 : sizeAdd s.index 0 = s.index := sizeAdd_of_lt (by omega)
  have hk : sizeAdd s.index lookahead = s.index + lookahead := sizeAdd_of_lt hno
  refine ⟨?_, ?_, ?_, ?_⟩
  · unfold TokenStream.peek
    rw [dif_neg (by omega)]
    simp only [hk]
  · unfold TokenStream.peek TokenStream.consume
    rw [dif_neg (by omega), dif_neg (by omega)]
    simp only [h0]
  · unfold TokenStream.peek
    rw [dif_neg (by omega)]
    simp only [h0]
  · unfold TokenStream.peek
    rw [dif_neg (by omega)]

/-- C3 at a concrete input: on `x 42` with the cursor at 0, `peek(1)` returns
`42` and leaves the stream as it was. -/
theorem C3_peek_spec_witness :
    (TokenStream.ofTokens [tokX, tok42]).peek 1 =
      (.returns tok42, TokenStream.ofTokens [tokX, tok42]) :=
  (C3_peek_spec (TokenStream.ofTokens [tokX, tok42]) 1 (by decide) (by decide)).1

/-- C4 fails on the code: on the stream `x 42` with the cursor on `42`, the
lookahead `2 ^ 64 - 1` is a `size_t`, the sum `cursor + lookahead` is `2 ^ 64`,
far past the end, and yet `peek` does not throw: the sum wraps to 0 and the
token `x` before the cursor is returned. -/
theorem C4_peek_wraps_around :
    2 ^ 64 - 1 < SIZE_RANGE ∧
    streamX42At1.index + (2 ^ 64 - 1) ≥ streamX42At1.size ∧
    streamX42At1.peek (2 ^ 64 - 1) = (.returns tokX, streamX42At1) := by
  decide

/-- C5 fails on the code: on the stream `x 42` with the cursor on `42`,
`advance(2 ^ 64 - 1)` returns with the cursor at 0, not at
`min(size(), cursor + steps) = 2`: the sum wraps to 0 before `std::min`. -/
theorem C5_advance_wraps_around :
    2 ^ 64 - 1 < SIZE_RANGE ∧
    streamX42At1.index ≤ streamX42At1.size ∧
    min streamX42At1.size (streamX42At1.index + (2 ^ 64 - 1)) = 2 ∧
    streamX42At1.advance (2 ^ 64 - 1) = (.returns (), { streamX42At1 with index := 0 }) := by
  decide

/-- C6: `rewind(steps)` always returns, leaves the tokens alone and sets the
cursor to `max(0, cursor - steps)` computed in the integers: 0 when
`steps > cursor`, and `cursor - steps` otherwise, the machine subtraction
never wrapping. The cursor is a `size_t`. -/
theorem C6_rewind_spec (s : TokenStream) (steps : Nat) (hidx : s.index < SIZE_RANGE) :
    (s.rewind steps).1 = .returns () ∧
    (s.rewind steps).2.tokens = s.tokens ∧
    ((s.rewind steps).2.index : Int) = max 0 ((s.index : Int) - (steps : Int)) ∧
    (steps > s.index → (s.rewind steps).2.index = 0) ∧
    (steps ≤ s.index → (s.rewind steps).2.index + steps = s.index) := by
  by_cases h : steps > s.index
  · have hr : s.rewind steps = (.returns (), { s with index := 0 }) := by
      unfold TokenStream.rewind
      rw [if_pos h]
    rw [hr]
    refine ⟨rfl, rfl, ?_, fun _ => rfl, fun h' => ?_⟩
    · simp only [Nat.cast_zero]
      omega
    · omega
  · have hr : s.rewind steps = (.returns (), { s with index := s.index - steps }) := by
      unfold TokenStream.rewind
      rw [if_neg h, sizeSub_of_le (by omega) hidx]
    rw [hr]
    refine ⟨rfl, rfl, ?_, fun h' => ?_, fun _ => ?_⟩
    · simp only
      omega
    · omega
    · simp only
      omega

/-- C6 at concrete inputs: from the cursor 1, `rewind(1)` and `rewind(5)` both
end with the cursor at 0. -/
theorem C6_rewind_spec_witness :
    (streamX42At1.rewind 1).2.index + 1 = streamX42At1.index ∧
    (streamX42At1.rewind 5).2.index = 0 :=
  ⟨(C6_rewind_spec streamX42At1 1 (by decide)).2.2.2.2 (by decide),
    (C6_rewind_spec streamX42At1 5 (by decide)).2.2.2.1 (by decide)⟩

/-- C7: `rewindTo(index)` and `advanceTo(index)` return exactly when
`index < size()`, and then the cursor is `index` and the tokens are unchanged;
when `index >= size()`, and so for `index == size()` whatever the stream holds,
they throw `std::out_of_range` and change nothing. The two members agree on
every stream and index. -/
theorem C7_rewindTo_advanceTo_spec (s : TokenStream) (index : Nat) :
    (index < s.size → s.rewindTo index = (.returns (), { s with index := index })) ∧
    (index ≥ s.size → s.rewindTo index = (.throws .outOfRange, s)) ∧
    ((s.rewindTo index).1 = .returns () ↔ index < s.size) ∧
    s.rewindTo s.size = (.throws .outOfRange, s) ∧
    s.advanceTo index = s.rewindTo index := by
  unfold TokenStream.size TokenStream.rewindTo TokenStream.advanceTo
  refine ⟨fun h => ?_, fun h => ?_, ?_, ?_, rfl⟩
  · rw [if_neg (by omega)]
  · rw [if_pos h]
  · by_cases h : index ≥ s.tokens.length
    · rw [if_pos h]
      constructor
      · intro h'
        exact absurd h' (by simp)
      · intro h'
        omega
    · rw [if_neg h]
      exact ⟨fun _ => by omega, fun _ => rfl⟩
  · rw [if_pos (Nat.le_refl _)]

/-- C7 at concrete inputs: on `x 42` with the cursor at 1, `rewindTo(0)` puts
the cursor at 0 and `rewindTo(2)` throws. -/
theorem C7_rewindTo_advanceTo_spec_witness :
    streamX42At1.rewindTo 0 = (.returns (), { streamX42At1 with index := 0 }) ∧
    streamX42At1.rewindTo 2 = (.throws .outOfRange, streamX42At1) :=
  ⟨(C7_rewindTo_advanceTo_spec streamX42At1 0).1 (by decide),
    (C7_rewindTo_advanceTo_spec streamX42At1 2).2.1 (by decide)⟩

/-- C8: a public call that throws leaves the stream, tokens and cursor, as it
was before the call. This covers `peek`, `consume`, `rewindTo`, `advanceTo`,
`at`, both `insert`, the three `erase` and both `replace` overloads (the other
operations never throw). -/
theorem C8_failure_atomicity (s : TokenStream) (op : Op) (e : Error)
    (h : (op.exec s).1 = .throws e) : (op.exec s).2 = s := by
  cases op <;>
    simp only [Op.exec, TokenStream.consume, TokenStream.peek,
      TokenStream.rewind, TokenStream.rewindTo, TokenStream.advance,
      TokenStream.advanceTo, TokenStream.push, TokenStream.pushAll, TokenStream.insert,
      TokenStream.insertAll, TokenStream.erase, TokenStream.eraseRange,
      TokenStream.eraseToken, TokenStream.replace, TokenStream.replaceToken,
      TokenStream.clear, TokenStream.tokenAt] at h ⊢ <;>
    (try split at h) <;> (try split at h) <;>
    simp_all [Outcome.map]

/-- C8 at a concrete input: `insert(1, y)` on the stream holding only `x`
throws and the stream is unchanged. -/
theorem C8_failure_atomicity_witness :
    ((Op.insert 1 tokY).exec streamXAtEnd).1 = .throws .outOfRange ∧
    ((Op.insert 1 tokY).exec streamXAtEnd).2 = streamXAtEnd :=
  ⟨by decide, C8_failure_atomicity streamXAtEnd (Op.insert 1 tokY) .outOfRange (by decide)⟩

/-! ## Structural edits -/

/-- C9: for `i < size()`, `insert(i, t)` returns, `size()` grows by exactly one,
`at(i)` is `t` afterwards, every token at `j < i` stays at `j` and every token at
`j` in `[i, size())` moves to `j + 1`; for `i >= size()`, so also for
`i == size()`, it throws `std::out_of_range`. -/
theorem C9_insert_spec (s : TokenStream) (i : Nat) (t : Token) :
    (i < s.size →
      (s.insert i t).1 = .returns () ∧
      (s.insert i t).2.size = s.size + 1 ∧
      ((s.insert i t).2.tokenAt i).1 = .returns t ∧
      (∀ j, j < i → (s.insert i t).2.tokens[j]? = s.tokens[j]?) ∧
      (∀ j, i ≤ j → j < s.size → (s.insert i t).2.tokens[j + 1]? = s.tokens[j]?)) ∧
    (i ≥ s.size → s.insert i t = (.throws .outOfRange, s)) := by
  unfold TokenStream.size
  constructor
  · intro hi
    have hr : s.insert i t = (.returns (), { s with tokens := vectorInsert s.tokens i t }) := by
      unfold TokenStream.insert
      rw [if_neg (by omega)]
    rw [hr]
    refine ⟨rfl, ?_, ?_, fun j hj => ?_, fun j hj _ => ?_⟩
    · exact length_vectorInsert s.tokens i t (by omega)
    · rw [TokenStream.tokenAt_of_getElem? _ i t
        (getElem?_vectorInsert_self s.tokens i t (by omega))]
    · exact getElem?_vectorInsert_lt s.tokens i t j hj (by omega)
    · exact getElem?_vectorInsert_ge s.tokens i t j hj (by omega)
  · intro hi
    unfold TokenStream.insert
    rw [if_pos hi]

/-- C9 at concrete inputs: `insert(0, 42)` on the stream holding `x` gives a
stream of size 2 with `42` in front, and `insert(1, y)` on it throws. -/
theorem C9_insert_spec_witness :
    ((streamXAtEnd.insert 0 tok42).2.size = streamXAtEnd.size + 1 ∧
      ((streamXAtEnd.insert 0 tok42).2.tokenAt 0).1 = .returns tok42) ∧
    streamXAtEnd.insert 1 tokY = (.throws .outOfRange, streamXAtEnd) :=
  ⟨⟨((C9_insert_spec streamXAtEnd 0 tok42).1 (by decide)).2.1,
      ((C9_insert_spec streamXAtEnd 0 tok42).1 (by decide)).2.2.1⟩,
    (C9_insert_spec streamXAtEnd 1 tokY).2 (by decide)⟩

/-- C10: `erase(i)` returns exactly when `i < size()`; then `size()` shrinks by
exactly one, the tokens before `i` are unchanged and every token at `j > i`
moves to `j - 1`, the result being the old sequence without its `i`-th element;
for `i >= size()` it throws `std::out_of_range`. -/
theorem C10_erase_spec (s : TokenStream) (i : Nat) :
    ((s.erase i).1 = .returns () ↔ i < s.size) ∧
    (i < s.size →
      (s.erase i).2.size + 1 = s.size ∧
      (∀ j, j < i → (s.erase i).2.tokens[j]? = s.tokens[j]?) ∧
      (∀ j, i < j → (s.erase i).2.tokens[j - 1]? = s.tokens[j]?) ∧
      (s.erase i).2.tokens = s.tokens.eraseIdx i) ∧
    (i ≥ s.size → s.erase i = (.throws .outOfRange, s)) := by
  unfold TokenStream.size
  refine ⟨?_, fun hi => ?_, fun hi => ?_⟩
  · unfold TokenStream.erase
    by_cases h : i ≥ s.tokens.length
    · rw [if_pos h]
      constructor
      · intro h'
        exact absurd h' (by simp)
      · intro h'
        omega
    · rw [if_neg h]
      exact ⟨fun _ => by omega, fun _ => rfl⟩
  · have hr : s.erase i = (.returns (), { s with tokens := vectorErase s.tokens i }) := by
      unfold TokenStream.erase
      rw [if_neg (by omega)]
    rw [hr]
    refine ⟨?_, fun j hj => ?_, fun j hj => ?_, ?_⟩
    · exact length_vectorErase s.tokens i hi
    · exact getElem?_vectorErase_lt s.tokens i j hj
    · have h := getElem?_vectorErase_ge s.tokens i (j - 1) (by omega)
      have hj' : j - 1 + 1 = j := by omega
      rw [hj'] at h
      exact h
    · exact vectorErase_eq_eraseIdx s.tokens i
  · unfold TokenStream.erase
    rw [if_pos hi]

/-- C10 at concrete inputs: `erase(0)` on `x 42` leaves the single token `42`,
and `erase(1)` on the stream holding only `x` throws. -/
theorem C10_erase_spec_witness :
    (streamX42At1.erase 0).2.tokens = [tokX, tok42].eraseIdx 0 ∧
    streamXAtEnd.erase 1 = (.throws .outOfRange, streamXAtEnd) :=
  ⟨((C10_erase_spec streamX42At1 0).2.1 (by decide)).2.2.2,
    (C10_erase_spec streamXAtEnd 1).2.2 (by decide)⟩

end LumC

/-! ## Searching by value and erasing ranges -/

namespace LumC

theorem find_le_length (v : List Token) (t : Token) : find v t ≤ v.length := by
  induction v with
  | nil => simp [find]
  | cons x xs ih =>
    unfold find
    split
    · omega
    · simp only [List.length_cons]
      omega

theorem find_eq_length_of_no_match (v : List Token) (t : Token)
    (h : ∀ x ∈ v, x.opEq t = false) : find v t = v.length := by
  induction v with
  | nil => simp [find]
  | cons x xs ih =>
    unfold find
    have hx : x.opEq t = false := h x (List.mem_cons_self _ _)
    have hxs : find xs t = xs.length := ih (fun y hy => h y (List.mem_cons_of_mem _ hy))
    simp [hx, hxs]

theorem find_lt_length_of_match (v : List Token) (t : Token)
    (h : ∃ x ∈ v, x.opEq t = true) : find v t < v.length := by
  induction v with
  | nil =>
    obtain ⟨x, hx, _⟩ := h
    exact absurd hx (List.not_mem_nil x)
  | cons y ys ih =>
    unfold find
    by_cases hy : y.opEq t = true
    · simp [hy]
    · simp only [hy, Bool.false_eq_true, if_false, List.length_cons]
      obtain ⟨x, hx, hxt⟩ := h
      rcases List.mem_cons.mp hx with hxy | hxys
      · subst hxy
        exact absurd hxt hy
      · have := ih ⟨x, hxys, hxt⟩
        omega

theorem getElem?_find (v : List Token) (t : Token) (h : find v t < v.length) :
    ∃ x, v[find v t]? = some x ∧ x.opEq t = true := by
  induction v with
  | nil => simp at h
  | cons y ys ih =>
    unfold find at h ⊢
    by_cases hy : y.opEq t = true
    · simp only [hy, if_true]
      exact ⟨y, by simp, hy⟩
    · simp only [hy, Bool.false_eq_true, if_false, List.length_cons] at h ⊢
      obtain ⟨x, hx, hxt⟩ := ih (by omega)
      exact ⟨x, by simpa using hx, hxt⟩

theorem no_match_before_find (v : List Token) (t : Token) (j : Nat) (hj : j < find v t)
    (x : Token) (hx : v[j]? = some x) : x.opEq t = false := by
  induction v generalizing j with
  | nil => simp at hx
  | cons y ys ih =>
    unfold find at hj
    by_cases hy : y.opEq t = true
    · simp [hy] at hj
    · simp only [hy, Bool.false_eq_true, if_false] at hj
      cases j with
      | zero =>
        simp only [List.getElem?_cons_zero, Option.some.injEq] at hx
        subst hx
        simpa using hy
      | succ n =>
        simp only [List.getElem?_cons_succ] at hx
        exact ih n (by omega) hx

theorem getElem?_vectorEraseRange_lt (v : List Token) (first last j : Nat)
    (hj : j < first) (h : first ≤ v.length) :
    (vectorEraseRange v first last)[j]? = v[j]? := by
  unfold vectorEraseRange
  rw [List.getElem?_append_left (by simp; omega)]
  simp [List.getElem?_take, hj]

theorem getElem?_vectorEraseRange_ge (v : List Token) (first last j : Nat)
    (hj : first ≤ j) (hl : first ≤ last) (h : first ≤ v.length) :
    (vectorEraseRange v first last)[j]? = v[j + (last - first)]? := by
  unfold vectorEraseRange
  rw [List.getElem?_append_right (by simp; omega)]
  simp only [List.length_take, Nat.min_eq_left h, List.getElem?_drop]
  congr 1
  omega

theorem length_vectorEraseRange (v : List Token) (first last : Nat)
    (hl : first ≤ last) (h : last ≤ v.length) :
    (vectorEraseRange v first last).length + (last - first) = v.length := by
  simp [vectorEraseRange]
  omega

/-- C11: for `start <= end < size()`, `erase(start, end)` of the LumC variant
returns and removes the inclusive range `[start, end]`: what is left is the
tokens of `[0, start)` followed by those of `(end, size())`, and `size()` drops
by exactly `end - start + 1`; when `start >= size()` or `end >= size()` it throws
`std::out_of_range`. -/
theorem C11_eraseRange_inclusive (s : TokenStream) (start stop : Nat) :
    (start ≤ stop → stop < s.size →
      (s.eraseRange start stop).1 = .returns () ∧
      (s.eraseRange start stop).2.tokens = s.tokens.take start ++ s.tokens.drop (stop + 1) ∧
      (s.eraseRange start stop).2.size + (stop - start + 1) = s.size ∧
      (∀ j, j < start → (s.eraseRange start stop).2.tokens[j]? = s.tokens[j]?) ∧
      (∀ j, start ≤ j →
        (s.eraseRange start stop).2.tokens[j]? = s.tokens[j + (stop - start + 1)]?)) ∧
    (start ≥ s.size ∨ stop ≥ s.size → s.eraseRange start stop = (.throws .outOfRange, s)) := by
  unfold TokenStream.size
  constructor
  · intro hle hstop
    have hr : s.eraseRange start stop =
        (.returns (), { s with tokens := vectorEraseRange s.tokens start (stop + 1) }) := by
      unfold TokenStream.eraseRange
      rw [if_neg (by omega), if_neg (by omega)]
    rw [hr]
    refine ⟨rfl, rfl, ?_, fun j hj => ?_, fun j hj => ?_⟩
    · have := length_vectorEraseRange s.tokens start (stop + 1) (by omega) (by omega)
      simp only
      omega
    · exact getElem?_vectorEraseRange_lt s.tokens start (stop + 1) j hj (by omega)
    · have := getElem?_vectorEraseRange_ge s.tokens start (stop + 1) j hj (by omega) (by omega)
      have he : stop + 1 - start = stop - start + 1 := by omega
      rw [he] at this
      exact this
  · intro h
    unfold TokenStream.eraseRange
    rw [if_pos h]

/-- C11 at concrete inputs: the scenario of the test `EraseRange`, `erase(0, 1)`
on `x 42 y` leaves `y`; and `erase(0, 3)` on it throws. -/
theorem C11_eraseRange_inclusive_witness :
    (streamX42Y.eraseRange 0 1).2.tokens = [tokX, tok42, tokY].take 0 ++ [tokX, tok42, tokY].drop 2 ∧
    streamX42Y.eraseRange 0 3 = (.throws .outOfRange, streamX42Y) :=
  ⟨((C11_eraseRange_inclusive streamX42Y 0 1).1 (by decide) (by decide)).2.1,
    (C11_eraseRange_inclusive streamX42Y 0 3).2 (Or.inr (by decide))⟩

/-- C12: if some stored token equals `v` under `Token::operator==`, `erase(v)`
removes exactly the token at the smallest index `p` holding such a token: it
does what `erase(p)` does, so `size()` drops by one and later equal tokens stay;
if no stored token equals `v`, it throws `std::out_of_range` and the stream is
unchanged. -/
theorem C12_eraseToken_spec (s : TokenStream) (v : Token) :
    ((∃ x ∈ s.tokens, x.opEq v = true) →
      ∃ p, p < s.size ∧
        (∃ x, s.tokens[p]? = some x ∧ x.opEq v = true) ∧
        (∀ j x, j < p → s.tokens[j]? = some x → x.opEq v = false) ∧
        s.eraseToken v = s.erase p ∧
        (s.eraseToken v).1 = .returns () ∧
        (s.eraseToken v).2.tokens = s.tokens.eraseIdx p ∧
        (s.eraseToken v).2.size + 1 = s.size) ∧
    ((∀ x ∈ s.tokens, x.opEq v = false) → s.eraseToken v = (.throws .outOfRange, s)) := by
  unfold TokenStream.size
  constructor
  · intro h
    have hlt := find_lt_length_of_match s.tokens v h
    have hr : s.eraseToken v =
        (.returns (), { s with tokens := vectorErase s.tokens (find s.tokens v) }) := by
      unfold TokenStream.eraseToken
      rw [if_neg (by omega)]
    have he : s.erase (find s.tokens v) =
        (.returns (), { s with tokens := vectorErase s.tokens (find s.tokens v) }) := by
      unfold TokenStream.erase
      rw [if_neg (by omega)]
    refine ⟨find s.tokens v, hlt, getElem?_find s.tokens v hlt,
      fun j x hj hx => no_match_before_find s.tokens v j hj x hx, ?_, ?_, ?_, ?_⟩
    · rw [hr, he]
    · rw [hr]
    · rw [hr]
      exact vectorErase_eq_eraseIdx s.tokens _
    · rw [hr]
      exact length_vectorErase s.tokens _ hlt
  · intro h
    unfold TokenStream.eraseToken
    rw [if_pos (find_eq_length_of_no_match s.tokens v h)]

/-- C12 at concrete inputs: `erase(x)` on `x x` removes the first `x` only, and
`erase(y)` on `x x` throws. -/
theorem C12_eraseToken_spec_witness :
    (∃ p, p < streamXX.size ∧
        (∃ x, streamXX.tokens[p]? = some x ∧ x.opEq tokX = true) ∧
        (∀ j x, j < p → streamXX.tokens[j]? = some x → x.opEq tokX = false) ∧
        streamXX.eraseToken tokX = streamXX.erase p ∧
        (streamXX.eraseToken tokX).1 = .returns () ∧
        (streamXX.eraseToken tokX).2.tokens = streamXX.tokens.eraseIdx p ∧
        (streamXX.eraseToken tokX).2.size + 1 = streamXX.size) ∧
    streamXX.eraseToken tokY = (.throws .outOfRange, streamXX) :=
  ⟨(C12_eraseToken_spec streamXX tokX).1 ⟨tokX, by decide, by decide⟩,
    (C12_eraseToken_spec streamXX tokY).2 (by decide)⟩

/-! ## Replacing tokens -/

/-- C13: for `i < size()`, `replace(i, t)` returns, `at(i)` is `t` afterwards,
`size()` is unchanged and every position `j != i` holds the token it held
before; for `i >= size()` it throws `std::out_of_range`. -/
theorem C13_replace_spec (s : TokenStream) (i : Nat) (t : Token) :
    (i < s.size →
      (s.replace i t).1 = .returns () ∧
      ((s.replace i t).2.tokenAt i).1 = .returns t ∧
      (s.replace i t).2.size = s.size ∧
      (∀ j, j ≠ i → (s.replace i t).2.tokens[j]? = s.tokens[j]?)) ∧
    (i ≥ s.size → s.replace i t = (.throws .outOfRange, s)) := by
  unfold TokenStream.size
  constructor
  · intro hi
    have hr : s.replace i t = (.returns (), { s with tokens := s.tokens.set i t }) := by
      unfold TokenStream.replace
      rw [if_neg (by omega)]
    rw [hr]
    refine ⟨rfl, ?_, ?_, fun j hj => ?_⟩
    · rw [TokenStream.tokenAt_of_getElem? _ i t (by simp [hi])]
    · simp
    · simp only
      rw [List.getElem?_set_ne (Ne.symm hj)]
  · intro hi
    unfold TokenStream.replace
    rw [if_pos hi]

/-- C13 at concrete inputs: the test `Replace`, `replace(0, 42)` on the stream
holding `x` puts `42` at 0; `replace(1, 42)` on it throws. -/
theorem C13_replace_spec_witness :
    ((streamXAt0.replace 0 tok42).2.tokenAt 0).1 = .returns tok42 ∧
    streamXAt0.replace 1 tok42 = (.throws .outOfRange, streamXAt0) :=
  ⟨((C13_replace_spec streamXAt0 0 tok42).1 (by decide)).2.1,
    (C13_replace_spec streamXAt0 1 tok42).2 (by decide)⟩

/-- C14: if some stored token equals `oldToken` under `Token::operator==`,
`replace(oldToken, newToken)` overwrites the token at the smallest index `p`
holding such a token and changes nothing else: it does what
`replace(p, newToken)` does. If no stored token equals `oldToken` it throws
`std::invalid_argument`, which is not the `std::out_of_range` of
`replace(index, token)`, and the stream is unchanged. -/
theorem C14_replaceToken_spec (s : TokenStream) (oldToken newToken : Token) :
    ((∃ x ∈ s.tokens, x.opEq oldToken = true) →
      ∃ p, p < s.size ∧
        (∃ x, s.tokens[p]? = some x ∧ x.opEq oldToken = true) ∧
        (∀ j x, j < p → s.tokens[j]? = some x → x.opEq oldToken = false) ∧
        s.replaceToken oldToken newToken = s.replace p newToken ∧
        (s.replaceToken oldToken newToken).1 = .returns () ∧
        (s.replaceToken oldToken newToken).2.size = s.size ∧
        (s.replaceToken oldToken newToken).2.tokens[p]? = some newToken ∧
        (∀ j, j ≠ p → (s.replaceToken oldToken newToken).2.tokens[j]? = s.tokens[j]?)) ∧
    ((∀ x ∈ s.tokens, x.opEq oldToken = false) →
      s.replaceToken oldToken newToken = (.throws .invalidArgument, s) ∧
      (s.replaceToken oldToken newToken).1 ≠ (s.replace s.size newToken).1) := by
  unfold TokenStream.size
  constructor
  · intro h
    have hlt := find_lt_length_of_match s.tokens oldToken h
    have hr : s.replaceToken oldToken newToken =
        (.returns (), { s with tokens := s.tokens.set (find s.tokens oldToken) newToken }) := by
      unfold TokenStream.replaceToken
      rw [if_neg (by omega)]
    have he : s.replace (find s.tokens oldToken) newToken =
        (.returns (), { s with tokens := s.tokens.set (find s.tokens oldToken) newToken }) := by
      unfold TokenStream.replace
      rw [if_neg (by omega)]
    refine ⟨find s.tokens oldToken, hlt, getElem?_find s.tokens oldToken hlt,
      fun j x hj hx => no_match_before_find s.tokens oldToken j hj x hx, ?_, ?_, ?_, ?_,
      fun j hj => ?_⟩
    · rw [hr, he]
    · rw [hr]
    · rw [hr]
      simp
    · rw [hr]
      simp [hlt]
    · rw [hr]
      simp only
      rw [List.getElem?_set_ne (Ne.symm hj)]
  · intro h
    have hr : s.replaceToken oldToken newToken = (.throws .invalidArgument, s) := by
      unfold TokenStream.replaceToken
      rw [if_pos (find_eq_length_of_no_match s.tokens oldToken h)]
    have he : s.replace s.tokens.length newToken = (.throws .outOfRange, s) := by
      unfold TokenStream.replace
      rw [if_pos (Nat.le_refl _)]
    refine ⟨hr, ?_⟩
    rw [hr, he]
    simp

/-- C14 at concrete inputs: the tests `ReplaceOldToken` and
`ReplaceOldTokenNotFound`. On `x 42 y`, replacing `x` acts as `replace(0, _)`
does, and replacing a token that is not stored throws `std::invalid_argument`. -/
theorem C14_replaceToken_spec_witness :
    (∃ p, p < streamX42Y.size ∧
        (∃ x, streamX42Y.tokens[p]? = some x ∧ x.opEq tokX = true) ∧
        (∀ j x, j < p → streamX42Y.tokens[j]? = some x → x.opEq tokX = false) ∧
        streamX42Y.replaceToken tokX tok42 = streamX42Y.replace p tok42 ∧
        (streamX42Y.replaceToken tokX tok42).1 = .returns () ∧
        (streamX42Y.replaceToken tokX tok42).2.size = streamX42Y.size ∧
        (streamX42Y.replaceToken tokX tok42).2.tokens[p]? = some tok42 ∧
        (∀ j, j ≠ p →
          (streamX42Y.replaceToken tokX tok42).2.tokens[j]? = streamX42Y.tokens[j]?)) ∧
    streamXX.replaceToken tokY tok42 = (.throws .invalidArgument, streamXX) :=
  ⟨(C14_replaceToken_spec streamX42Y tokX tok42).1 ⟨tokX, by decide, by decide⟩,
    ((C14_replaceToken_spec streamXX tokY tok42).2 (by decide)).1⟩

/-- C15, as stated, fails: the stream `x x` holds at position 1 a token equal
to `x`, and after `replace(x, 42)`, which returns, `at(1)` is still `x`, which
is not equal to `42` under `Token::operator==`. -/
theorem C15_later_match_not_replaced :
    (∃ x, streamXX.tokens[1]? = some x ∧ x.opEq tokX = true) ∧
    (streamXX.replaceToken tokX tok42).1 = .returns () ∧
    ((streamXX.replaceToken tokX tok42).2.tokenAt 1).1 = .returns tokX ∧
    tokX.opEq tok42 = false := by
  refine ⟨⟨tokX, by decide, by decide⟩, by decide, by decide, by decide⟩

/-- C15, amended: if `p` is the smallest position at which the stream holds a
token equal to `oldValue` under `Token::operator==`, then
`replace(oldValue, newValue)` returns, `size()` is unchanged and `at(p)` is
`newValue`, a token equal to `newValue`. -/
theorem C15_first_match_replaced (s : TokenStream) (oldValue newValue : Token) (p : Nat)
    (x : Token) (hp : s.tokens[p]? = some x) (hx : x.opEq oldValue = true)
    (hmin : ∀ j y, j < p → s.tokens[j]? = some y → y.opEq oldValue = false) :
    (s.replaceToken oldValue newValue).1 = .returns () ∧
    (s.replaceToken oldValue newValue).2.size = s.size ∧
    ∃ t, ((s.replaceToken oldValue newValue).2.tokenAt p).1 = .returns t ∧
      t = newValue ∧ t.opEq newValue = true := by
  have hmem : ∃ y ∈ s.tokens, y.opEq oldValue = true :=
    ⟨x, List.getElem?_mem hp, hx⟩
  have hlt := find_lt_length_of_match s.tokens oldValue hmem
  have hfind : find s.tokens oldValue = p := by
    obtain ⟨y, hy, hyo⟩ := getElem?_find s.tokens oldValue hlt
    rcases Nat.lt_trichotomy (find s.tokens oldValue) p with h | h | h
    · have := hmin _ y h hy
      rw [hyo] at this
      exact absurd this (by simp)
    · exact h
    · have := no_match_before_find s.tokens oldValue p h x hp
      rw [hx] at this
      exact absurd this (by simp)
  have hr : s.replaceToken oldValue newValue =
      (.returns (), { s with tokens := s.tokens.set p newValue }) := by
    unfold TokenStream.replaceToken
    rw [if_neg (by omega), hfind]
  have hpl : p < s.tokens.length := hfind ▸ hlt
  rw [hr]
  refine ⟨rfl, by simp [TokenStream.size], newValue, ?_, rfl, ?_⟩
  · rw [TokenStream.tokenAt_of_getElem? _ p newValue (by simp [hpl])]
  · simp [Token.opEq]

/-- C15, amended, at a concrete input: on `x 42 y` the first `x` is at 0, and
after `replace(x, 42)` the size is still 3 and `at(0)` is `42`. -/
theorem C15_first_match_replaced_witness :
    (streamX42Y.replaceToken tokX tok42).1 = .returns () ∧
    (streamX42Y.replaceToken tokX tok42).2.size = streamX42Y.size ∧
    ∃ t, ((streamX42Y.replaceToken tokX tok42).2.tokenAt 0).1 = .returns t ∧
      t = tok42 ∧ t.opEq tok42 = true :=
  C15_first_match_replaced streamX42Y tokX tok42 0 tokX (by decide) (by decide)
    (by intro j y hj; omega)

/-! ## Appending and clearing -/

/-- C16: `push(t)` always returns; afterwards `size()` is one more, the last
token is `t`, every token stored before is at the position it had, the cursor
is unchanged, and the tokens are the old ones followed by `t`. -/
theorem C16_push_spec (s : TokenStream) (t : Token) :
    (s.push t).1 = .returns () ∧
    (s.push t).2.size = s.size + 1 ∧
    (s.push t).2.tokens.getLast? = some t ∧
    (∀ j, j < s.size → (s.push t).2.tokens[j]? = s.tokens[j]?) ∧
    (s.push t).2.index = s.index ∧
    (s.push t).2.tokens = s.tokens ++ [t] := by
  unfold TokenStream.push TokenStream.size
  refine ⟨rfl, by simp, by simp, fun j hj => ?_, rfl, rfl⟩
  simp only
  rw [List.getElem?_append_left hj]

/-- C16 at a concrete input: pushing `y` on `x 42` keeps `x` at position 0. -/
theorem C16_push_spec_witness :
    (streamX42At1.push tokY).2.tokens[0]? = streamX42At1.tokens[0]? :=
  (C16_push_spec streamX42At1 tokY).2.2.2.1 0 (by decide)

/-- C17, as stated, fails: on the stream holding `x` with the cursor at 0,
`push(42)` followed by `peek(0)` returns `x`, which is not equal to `42` under
`Token::operator==`. -/
theorem C17_push_then_peek_reads_cursor :
    ((streamXAt0.push tok42).2.peek 0).1 = .returns tokX ∧ tokX.opEq tok42 = false := by
  decide

/-- C17, amended: when the cursor is at the end of the stream (`cursor ==
size()`, as in a stream that is empty), `push(t)` followed by `peek(0)` returns
`t`, a token equal to `t`. The number of tokens is a `size_t`. -/
theorem C17_push_then_peek_at_end (s : TokenStream) (t : Token)
    (hend : s.index = s.size) (hsize : s.size < SIZE_RANGE) :
    ∃ x, (s.push t).2.peek 0 = (.returns x, (s.push t).2) ∧ x = t ∧ x.opEq t = true := by
  unfold TokenStream.size at hend hsize
  have h0 : sizeAdd s.index 0 = s.tokens.length := by
    rw [sizeAdd_of_lt (by omega)]
    omega
  refine ⟨t, ?_, rfl, by simp [Token.opEq]⟩
  unfold TokenStream.push TokenStream.peek
  simp only [h0]
  rw [dif_neg (by simp)]
  simp

/-- C17, amended, at a concrete input: the test `Push`, on the empty stream
`push(x)` followed by `peek(0)` returns `x`. -/
theorem C17_push_then_peek_at_end_witness :
    ∃ x, (TokenStream.init.push tokX).2.peek 0 = (.returns x, (TokenStream.init.push tokX).2) ∧
      x = tokX ∧ x.opEq tokX = true :=
  C17_push_then_peek_at_end TokenStream.init tokX (by decide) (by decide)

/-- C18: `clear()` always returns, whatever the tokens and the cursor (a cursor
beyond `size()` included); afterwards `size()` is 0, `empty()` and `eof()` are
true and the cursor is 0: the stream is the default-constructed one. -/
theorem C18_clear_spec (s : TokenStream) :
    s.clear.1 = .returns () ∧
    s.clear.2.size = 0 ∧
    s.clear.2.empty = true ∧
    s.clear.2.eof = true ∧
    s.clear.2.index = 0 ∧
    s.clear.2 = TokenStream.init := by
  unfold TokenStream.clear TokenStream.init
  refine ⟨rfl, rfl, rfl, ?_, rfl, rfl⟩
  simp [TokenStream.eof]

/-! ## Indexed access and the traversal view -/

theorem TokenStream.tokenAt_of_lt (s : TokenStream) (i : Nat) (h : i < s.tokens.length) :
    s.tokenAt i = (.returns (s.tokens.get ⟨i, h⟩), s) := by
  unfold TokenStream.tokenAt
  rw [dif_neg (by omega)]

theorem TokenStream.tokenAt_of_ge (s : TokenStream) (i : Nat) (h : i ≥ s.tokens.length) :
    s.tokenAt i = (.throws .outOfRange, s) := by
  unfold TokenStream.tokenAt
  rw [dif_pos h]

theorem TokenStream.tokenAt_cursor_free (s : TokenStream) (i c : Nat) :
    (({ tokens := s.tokens, index := c } : TokenStream).tokenAt i).1 = (s.tokenAt i).1 := by
  by_cases h : i < s.tokens.length
  · rw [TokenStream.tokenAt_of_lt s i h,
      TokenStream.tokenAt_of_lt { tokens := s.tokens, index := c } i h]
  · have hge : i ≥ s.tokens.length := by omega
    rw [TokenStream.tokenAt_of_ge s i hge,
      TokenStream.tokenAt_of_ge { tokens := s.tokens, index := c } i hge]

/-- C19: `at(index)` returns exactly when `index < size()`; it then returns
`tokens[index]`, the token `operator[](index)` returns, whatever the cursor is
and without changing cursor or tokens; for `index >= size()` it throws
`std::out_of_range`. -/
theorem C19_tokenAt_spec (s : TokenStream) (i : Nat) :
    ((∃ t, (s.tokenAt i).1 = .returns t) ↔ i < s.size) ∧
    (∀ h : i < s.size,
      s.tokenAt i = (.returns (s.tokens.get ⟨i, h⟩), s) ∧ s.opIndex i = s.tokenAt i) ∧
    (∀ c : Nat, (({ tokens := s.tokens, index := c } : TokenStream).tokenAt i).1 =
      (s.tokenAt i).1) ∧
    (i ≥ s.size → s.tokenAt i = (.throws .outOfRange, s)) := by
  unfold TokenStream.size
  refine ⟨?_, fun h => ⟨TokenStream.tokenAt_of_lt s i h, ?_⟩, fun c => ?_,
    fun h => TokenStream.tokenAt_of_ge s i h⟩
  · by_cases h : i < s.tokens.length
    · rw [TokenStream.tokenAt_of_lt s i h]
      exact ⟨fun _ => h, fun _ => ⟨_, rfl⟩⟩
    · rw [TokenStream.tokenAt_of_ge s i (by omega)]
      constructor
      · rintro ⟨t, ht⟩
        exact absurd ht (by simp)
      · intro h'
        exact absurd h' h
  · rw [TokenStream.tokenAt_of_lt s i h]
    unfold TokenStream.opIndex
    rw [dif_pos h]
  · exact TokenStream.tokenAt_cursor_free s i c

/-- C19 at concrete inputs: the tests `At`, `OperatorBracket` and
`AtOutOfRange`. On `x 42`, `at(1)` is `42`, as `operator[]` gives, and `at(0)`
on the empty stream throws. -/
theorem C19_tokenAt_spec_witness :
    (streamX42At1.tokenAt 1 = (.returns tok42, streamX42At1) ∧
      streamX42At1.opIndex 1 = streamX42At1.tokenAt 1) ∧
    TokenStream.init.tokenAt 0 = (.throws .outOfRange, TokenStream.init) :=
  ⟨(C19_tokenAt_spec streamX42At1 1).2.1 (by decide),
    (C19_tokenAt_spec TokenStream.init 0).2.2.2 (by decide)⟩

/-- C20: `begin()` is the view at index 0 and `end()` the view at index
`size()`; dereferencing the view at index `i` is `at(i)`: it returns `tokens[i]`
for `i < size()` and throws `std::out_of_range` for `i >= size()`, so
dereferencing `end()` always throws, as `at(size())` does. The views do not
depend on the cursor of the stream, and dereferencing leaves the stream, its
cursor included, as it was. -/
theorem C20_traversal_view (s : TokenStream) (i : Nat) :
    s.begin = { index := 0 } ∧
    s.endIt = { index := s.size } ∧
    (({ index := i } : TokenStream.iterator).deref s = s.tokenAt i) ∧
    (∀ h : i < s.size,
      ({ index := i } : TokenStream.iterator).deref s = (.returns (s.tokens.get ⟨i, h⟩), s)) ∧
    (i ≥ s.size →
      ({ index := i } : TokenStream.iterator).deref s = (.throws .outOfRange, s)) ∧
    (s.endIt.deref s = (.throws .outOfRange, s) ∧ s.endIt.deref s = s.tokenAt s.size) ∧
    (∀ c : Nat,
      ({ tokens := s.tokens, index := c } : TokenStream).begin = s.begin ∧
      ({ tokens := s.tokens, index := c } : TokenStream).endIt = s.endIt ∧
      (({ index := i } : TokenStream.iterator).deref { tokens := s.tokens, index := c }).1 =
        (({ index := i } : TokenStream.iterator).deref s).1) ∧
    (({ index := i } : TokenStream.iterator).deref s).2 = s := by
  unfold TokenStream.size
  refine ⟨rfl, rfl, rfl, fun h => TokenStream.tokenAt_of_lt s i h,
    fun h => TokenStream.tokenAt_of_ge s i h,
    ⟨TokenStream.tokenAt_of_ge s _ (Nat.le_refl _), rfl⟩, fun c => ⟨rfl, rfl, ?_⟩, ?_⟩
  · exact TokenStream.tokenAt_cursor_free s i c
  · unfold TokenStream.iterator.deref
    by_cases h : i < s.tokens.length
    · rw [TokenStream.tokenAt_of_lt s i h]
    · rw [TokenStream.tokenAt_of_ge s i (by omega)]

/-- C20 at concrete inputs: the test `Iterator`. On `x 42` the view at index 1
dereferences to `42`, and the view at index 2, which is `end()`, throws. -/
theorem C20_traversal_view_witness :
    ({ index := 1 } : TokenStream.iterator).deref streamX42At1 =
      (.returns tok42, streamX42At1) ∧
    ({ index := 2 } : TokenStream.iterator).deref streamX42At1 =
      (.throws .outOfRange, streamX42At1) :=
  ⟨(C20_traversal_view streamX42At1 1).2.2.2.1 (by decide),
    (C20_traversal_view streamX42At1 2).2.2.2.2.1 (by decide)⟩

end LumC

/-! ## The cursor under structural edits, and token equality -/

namespace LumC

/-- C21: a call of `push` (token or sequence), `insert` (token or sequence),
`erase` (index, range, value) or `replace` (index, value) that returns leaves
the cursor at the value it had before the call. -/
theorem C21_structural_edits_keep_cursor (s : TokenStream) (op : Op)
    (hop : op.isStructural = true) (hret : (op.exec s).1 = .returns none) :
    (op.exec s).2.index = s.index := by
  cases op <;>
    simp only [Op.exec, Op.isStructural, TokenStream.push, TokenStream.pushAll,
      TokenStream.insert, TokenStream.insertAll, TokenStream.erase, TokenStream.eraseRange,
      TokenStream.eraseToken, TokenStream.replace, TokenStream.replaceToken] at hop hret ⊢ <;>
    first
      | exact Bool.noConfusion hop
      | ((repeat' split) <;> rfl)

/-- C21 at a concrete input: `erase(0)` on `x 42` with the cursor at 1 returns
and the cursor is still 1. -/
theorem C21_structural_edits_keep_cursor_witness :
    ((Op.erase 0).exec streamX42At1).2.index = streamX42At1.index :=
  C21_structural_edits_keep_cursor streamX42At1 (Op.erase 0) (by decide) (by decide)

/-- C22: `a == b` holds exactly when the types and the values of `a` and `b`
are equal; the lines and columns play no part, so tokens that differ only in
position are equal; and `==` is reflexive, symmetric and transitive. -/
theorem C22_token_equality (a b c : Token) :
    (a.opEq b = true ↔ a.type = b.type ∧ a.value = b.value) ∧
    (∀ l1 c1 l2 c2 : Nat,
      Token.opEq { a with line := l1, column := c1 } { b with line := l2, column := c2 } =
        a.opEq b) ∧
    (∀ l1 c1 l2 c2 : Nat,
      Token.opEq { type := a.type, value := a.value, line := l1, column := c1 }
        { type := a.type, value := a.value, line := l2, column := c2 } = true) ∧
    a.opEq a = true ∧
    (a.opEq b = true → b.opEq a = true) ∧
    (a.opEq b = true → b.opEq c = true → a.opEq c = true) := by
  have key : ∀ x y : Token, x.opEq y = true ↔ x.type = y.type ∧ x.value = y.value := by
    intro x y
    simp [Token.opEq]
  refine ⟨key a b, fun _ _ _ _ => rfl, fun _ _ _ _ => ?_, ?_, fun h => ?_, fun h1 h2 => ?_⟩
  · exact (key _ _).2 ⟨rfl, rfl⟩
  · exact (key a a).2 ⟨rfl, rfl⟩
  · have := (key a b).1 h
    exact (key b a).2 ⟨this.1.symm, this.2.symm⟩
  · have h1' := (key a b).1 h1
    have h2' := (key b c).1 h2
    exact (key a c).2 ⟨h1'.1.trans h2'.1, h1'.2.trans h2'.2⟩

/-- C22 at concrete inputs: `x` at line 0 equals `x` at line 3, column 7, in
both directions. -/
theorem C22_token_equality_witness :
    Token.opEq { tokX with line := 3, column := 7 } tokX = true :=
  (C22_token_equality tokX { tokX with line := 3, column := 7 } tokX).2.2.2.2.1 (by decide)

/-- C23: from a cursor `c <= size()`, for `k <= size() - c` and `k <= c`,
`advance(k)` followed by `rewind(k)` puts the cursor back at `c`; and for every
`k` both calls return. The number of tokens is a `size_t`. -/
theorem C23_advance_rewind_round_trip (s : TokenStream) (k : Nat)
    (hsize : s.size < SIZE_RANGE) (hinv : s.index ≤ s.size)
    (hk : k ≤ s.size - s.index) (_hk' : k ≤ s.index) :
    ((s.advance k).2.rewind k).2 = s ∧
    (∀ n : Nat, (s.advance n).1 = .returns () ∧ ((s.advance n).2.rewind n).1 = .returns ()) := by
  unfold TokenStream.size at *
  refine ⟨?_, fun n => ⟨rfl, rfl⟩⟩
  have hadd : sizeAdd s.index k = s.index + k := sizeAdd_of_lt (by omega)
  have hsub : sizeSub (s.index + k) k = s.index := by
    rw [sizeSub_of_le (by omega) (by omega)]
    omega
  unfold TokenStream.advance TokenStream.rewind
  simp only [hadd]
  rw [Nat.min_eq_left (by omega), if_neg (by omega), hsub]

/-- C23 at a concrete input: on `x 42 y` with the cursor at 1, `advance(1)`
followed by `rewind(1)` gives the stream back. -/
theorem C23_advance_rewind_round_trip_witness :
    (((⟨[tokX, tok42, tokY], 1⟩ : TokenStream).advance 1).2.rewind 1).2 =
      (⟨[tokX, tok42, tokY], 1⟩ : TokenStream) :=
  (C23_advance_rewind_round_trip ⟨[tokX, tok42, tokY], 1⟩ 1
    (by decide) (by decide) (by decide) (by decide)).1

/-! ## Reading a stream through -/

theorem TokenStream.consume_of_lt (s : TokenStream) (h : s.index < s.tokens.length)
    (hsize : s.tokens.length < SIZE_RANGE) :
    s.consume = (.returns (s.tokens.get ⟨s.index, h⟩), { s with index := s.index + 1 }) := by
  unfold TokenStream.consume
  rw [dif_neg (by omega), sizeAdd_of_lt (by omega)]

theorem TokenStream.consume_of_ge (s : TokenStream) (h : s.index ≥ s.tokens.length) :
    s.consume = (.throws .outOfRange, s) := by
  unfold TokenStream.consume
  rw [dif_pos h]

theorem TokenStream.consume_tokens (s : TokenStream) : s.consume.2.tokens = s.tokens := by
  unfold TokenStream.consume
  split <;> rfl

theorem consumeMany_tokens (k : Nat) (s : TokenStream) :
    (consumeMany k s).2.tokens = s.tokens := by
  induction k generalizing s with
  | zero => rfl
  | succ n ih =>
    unfold consumeMany
    simp only
    rw [ih, TokenStream.consume_tokens]

theorem consumeMany_of_le (k : Nat) (s : TokenStream) (h : s.index + k ≤ s.tokens.length)
    (hsize : s.tokens.length < SIZE_RANGE) :
    consumeMany k s =
      (((s.tokens.drop s.index).take k).map Outcome.returns,
        { s with index := s.index + k }) := by
  induction k generalizing s with
  | zero => simp [consumeMany]
  | succ n ih =>
    have hlt : s.index < s.tokens.length := by omega
    have hc := TokenStream.consume_of_lt s hlt hsize
    have hrec := ih { s with index := s.index + 1 } (by simp only; omega) hsize
    unfold consumeMany
    rw [hc]
    simp only [hrec]
    have hd : s.tokens.drop s.index = s.tokens[s.index] :: s.tokens.drop (s.index + 1) :=
      List.drop_eq_getElem_cons hlt
    rw [hd]
    simp only [List.take_succ_cons, List.map_cons, List.get_eq_getElem, Prod.mk.injEq,
      true_and]
    congr 1
    omega

theorem eofBeforeEach_of_le (k : Nat) (s : TokenStream) (h : s.index + k ≤ s.tokens.length)
    (hsize : s.tokens.length < SIZE_RANGE) :
    eofBeforeEach k s = List.replicate k false := by
  induction k generalizing s with
  | zero => rfl
  | succ n ih =>
    have hlt : s.index < s.tokens.length := by omega
    have hc := TokenStream.consume_of_lt s hlt hsize
    unfold eofBeforeEach
    rw [hc, ih { s with index := s.index + 1 } (by simp only; omega) hsize]
    simp [TokenStream.eof, hlt, List.replicate_succ]

theorem le_of_consumeMany_returns (n : Nat) (s : TokenStream) (ts : List Token)
    (hsize : s.tokens.length < SIZE_RANGE)
    (h : (consumeMany (n + 1) s).1 = ts.map Outcome.returns) :
    s.index + (n + 1) ≤ s.tokens.length := by
  induction n generalizing s ts with
  | zero =>
    by_cases hlt : s.index < s.tokens.length
    · omega
    · exfalso
      unfold consumeMany at h
      rw [TokenStream.consume_of_ge s (by omega)] at h
      cases ts with
      | nil => simp at h
      | cons a as => simp at h
  | succ m ih =>
    by_cases hlt : s.index < s.tokens.length
    · unfold consumeMany at h
      rw [TokenStream.consume_of_lt s hlt hsize] at h
      cases ts with
      | nil => simp at h
      | cons a as =>
        simp only [List.map_cons, List.cons.injEq] at h
        have := ih { s with index := s.index + 1 } as hsize h.2
        simp only at this
        omega
    · exfalso
      unfold consumeMany at h
      rw [TokenStream.consume_of_ge s (by omega)] at h
      cases ts with
      | nil => simp at h
      | cons a as => simp at h

/-- C24: a stream constructed from the tokens `l` yields, on `l.length`
successive calls of `consume()`, the tokens of `l` in order; `eof()` is false
before each of these calls and true after the last; the next `consume()`
throws `std::out_of_range`; and the stored tokens are `l` after any number of
calls. The number of tokens is a `size_t`. -/
theorem C24_read_through (l : List Token) (hsize : l.length < SIZE_RANGE) :
    (consumeMany l.length (TokenStream.ofTokens l)).1 = l.map Outcome.returns ∧
    eofBeforeEach l.length (TokenStream.ofTokens l) = List.replicate l.length false ∧
    (consumeMany l.length (TokenStream.ofTokens l)).2.eof = true ∧
    (consumeMany l.length (TokenStream.ofTokens l)).2.consume.1 = .throws .outOfRange ∧
    (consumeMany (l.length + 1) (TokenStream.ofTokens l)).1 =
      l.map Outcome.returns ++ [.throws .outOfRange] ∧
    (∀ k, (consumeMany k (TokenStream.ofTokens l)).2.tokens = l) := by
  have hm := consumeMany_of_le l.length (TokenStream.ofTokens l)
    (by simp [TokenStream.ofTokens]) hsize
  have hfin : (consumeMany l.length (TokenStream.ofTokens l)).2 =
      { tokens := l, index := l.length } := by
    rw [hm]
    simp [TokenStream.ofTokens]
  have hthrow : ({ tokens := l, index := l.length } : TokenStream).consume =
      (.throws .outOfRange, { tokens := l, index := l.length }) :=
    TokenStream.consume_of_ge _ (Nat.le_refl _)
  have hsnoc : ∀ (k : Nat) (s : TokenStream),
      (consumeMany (k + 1) s).1 = (consumeMany k s).1 ++ [(consumeMany k s).2.consume.1] := by
    intro k
    induction k with
    | zero => intro s; rfl
    | succ n ih =>
      intro s
      have h1 : (consumeMany (n + 1 + 1) s).1 =
          s.consume.1 :: (consumeMany (n + 1) s.consume.2).1 := rfl
      have h2 : (consumeMany (n + 1) s).1 = s.consume.1 :: (consumeMany n s.consume.2).1 := rfl
      have h3 : (consumeMany (n + 1) s).2 = (consumeMany n s.consume.2).2 := rfl
      rw [h1, ih s.consume.2, h2, h3]
      rfl
  have hout : (consumeMany l.length (TokenStream.ofTokens l)).1 = l.map Outcome.returns := by
    rw [hm]
    simp [TokenStream.ofTokens]
  refine ⟨hout, ?_, ?_, ?_, ?_, fun k => ?_⟩
  · exact eofBeforeEach_of_le l.length (TokenStream.ofTokens l)
      (by simp [TokenStream.ofTokens]) hsize
  · rw [hfin]
    simp [TokenStream.eof]
  · rw [hfin, hthrow]
  · rw [hsnoc, hout, hfin, hthrow]
  · rw [consumeMany_tokens]
    rfl

/-- C24 at a concrete input: the scenario on `x 42`. Two calls of `consume()`
return `x` and `42`, and a third throws. -/
theorem C24_read_through_witness :
    (consumeMany 2 (TokenStream.ofTokens [tokX, tok42])).1 = [.returns tokX, .returns tok42] ∧
    (consumeMany 3 (TokenStream.ofTokens [tokX, tok42])).1 =
      [.returns tokX, .returns tok42, .throws .outOfRange] :=
  ⟨(C24_read_through [tokX, tok42] (by decide)).1,
    (C24_read_through [tokX, tok42] (by decide)).2.2.2.2.1⟩

/-- C29: if `consume()` returns the token `t`, a following `rewind()` puts the
cursor back where it was before the `consume()` and `peek()` then returns `t`
again; and `k` calls of `consume()` that all return, followed by `rewind(k)`,
put the cursor back as well. The cursor and the number of tokens are `size_t`
values. -/
theorem C29_consume_undone_by_rewind (s : TokenStream)
    (hidx : s.index < SIZE_RANGE) (hsize : s.size < SIZE_RANGE) :
    (∀ t s', s.consume = (.returns t, s') →
      (s'.rewind 1).2 = s ∧ (s'.rewind 1).2.peek 0 = (.returns t, s)) ∧
    (∀ (k : Nat) (ts : List Token), (consumeMany k s).1 = ts.map Outcome.returns →
      ((consumeMany k s).2.rewind k).2 = s) := by
  unfold TokenStream.size at hsize
  have hback : ∀ k, s.index + k < SIZE_RANGE →
      (({ s with index := s.index + k } : TokenStream).rewind k).2 = s := by
    intro k hk
    unfold TokenStream.rewind
    simp only
    rw [if_neg (by omega), sizeSub_of_le (by omega) hk]
    have : s.index + k - k = s.index := by omega
    rw [this]
  constructor
  · intro t s' hc
    by_cases hlt : s.index < s.tokens.length
    · rw [TokenStream.consume_of_lt s hlt hsize] at hc
      simp only [Prod.mk.injEq, Outcome.returns.injEq] at hc
      obtain ⟨ht, hs'⟩ := hc
      rw [← hs', hback 1 (by omega)]
      refine ⟨rfl, ?_⟩
      unfold TokenStream.peek
      have h0 : sizeAdd s.index 0 = s.index := sizeAdd_of_lt (by omega)
      rw [dif_neg (by omega)]
      simp only [h0]
      rw [ht]
    · rw [TokenStream.consume_of_ge s (by omega)] at hc
      simp at hc
  · intro k ts hk
    cases k with
    | zero =>
      have h0 := hback 0 (by omega)
      simpa [consumeMany] using h0
    | succ n =>
      have hle := le_of_consumeMany_returns n s ts hsize hk
      rw [consumeMany_of_le (n + 1) s hle hsize]
      exact hback (n + 1) (by omega)

/-- C29 at a concrete input: the test `Rewind`. On `x 42`, `consume()` returns
`x`, and after `rewind()` the stream is as before and `peek()` returns `x`. -/
theorem C29_consume_undone_by_rewind_witness :
    (({ tokens := [tokX, tok42], index := 1 } : TokenStream).rewind 1).2 =
        TokenStream.ofTokens [tokX, tok42] ∧
    (({ tokens := [tokX, tok42], index := 1 } : TokenStream).rewind 1).2.peek 0 =
        (.returns tokX, TokenStream.ofTokens [tokX, tok42]) :=
  (C29_consume_undone_by_rewind (TokenStream.ofTokens [tokX, tok42]) (by decide) (by decide)).1
    tokX { tokens := [tokX, tok42], index := 1 } (by decide)

/-! ## Appending sequences and re-opening a stream -/

theorem pushEach_eq (tokens : List Token) (s : TokenStream) :
    pushEach s tokens = { s with tokens := s.tokens ++ tokens } := by
  induction tokens generalizing s with
  | nil => simp [pushEach]
  | cons t ts ih =>
    have hstep : pushEach s (t :: ts) = pushEach (s.push t).2 ts := rfl
    rw [hstep, ih]
    simp [TokenStream.push]

/-- C27: `push(sequence)` always returns, leaves the cursor alone and gives the
old tokens followed by the sequence in its order, so `size()` grows by the
length of the sequence; this is the stream that `push(t)` for each `t` of the
sequence, first to last, gives; and pushing the empty sequence changes
nothing. -/
theorem C27_pushAll_spec (s : TokenStream) (tokens : List Token) :
    (s.pushAll tokens).1 = .returns () ∧
    (s.pushAll tokens).2.index = s.index ∧
    (s.pushAll tokens).2.tokens = s.tokens ++ tokens ∧
    (s.pushAll tokens).2.size = s.size + tokens.length ∧
    (s.pushAll tokens).2 = pushEach s tokens ∧
    (s.pushAll []).2 = s := by
  have hr : ∀ ts : List Token, (s.pushAll ts).2 = { s with tokens := s.tokens ++ ts } := by
    intro ts
    simp [TokenStream.pushAll, vectorInsertRange]
  refine ⟨rfl, ?_, ?_, ?_, ?_, ?_⟩
  · rw [hr]
  · rw [hr]
  · rw [hr]
    simp [TokenStream.size]
  · rw [hr, pushEach_eq]
  · rw [hr]
    simp

/-- C28: when the cursor is at the end (`cursor == size()`, so `eof()` is
true), after `push(t)` `eof()` is false, the next `consume()` returns `t`, and
after it `eof()` is true again. The number of tokens after the push is a
`size_t`. -/
theorem C28_push_reopens_stream (s : TokenStream) (t : Token)
    (hend : s.index = s.size) (hsize : (s.push t).2.size < SIZE_RANGE) :
    s.eof = true ∧
    (s.push t).2.eof = false ∧
    (s.push t).2.consume.1 = .returns t ∧
    (s.push t).2.consume.2.eof = true := by
  unfold TokenStream.size at hend hsize
  have hp : (s.push t).2 = { tokens := s.tokens ++ [t], index := s.tokens.length } := by
    simp [TokenStream.push, hend]
  rw [hp] at hsize ⊢
  simp only [List.length_append, List.length_singleton] at hsize
  have hc := TokenStream.consume_of_lt
    { tokens := s.tokens ++ [t], index := s.tokens.length } (by simp) (by simpa using hsize)
  rw [hc]
  refine ⟨by simp [TokenStream.eof, hend], by simp [TokenStream.eof], ?_,
    by simp [TokenStream.eof]⟩
  simp

/-- C28 at a concrete input: the test `Eof`, on the empty stream. -/
theorem C28_push_reopens_stream_witness :
    TokenStream.init.eof = true ∧
    (TokenStream.init.push tokX).2.eof = false ∧
    (TokenStream.init.push tokX).2.consume.1 = .returns tokX ∧
    (TokenStream.init.push tokX).2.consume.2.eof = true :=
  C28_push_reopens_stream TokenStream.init tokX (by decide) (by decide)

end LumC

/-! ## The two range conventions -/

namespace LumC

theorem vectorInsert_vectorEraseRange (v : List Token) (first last : Nat) (x : Token)
    (h : first ≤ v.length) :
    vectorInsert (vectorEraseRange v first last) first x =
      v.take first ++ x :: v.drop last := by
  unfold vectorInsert vectorEraseRange
  have hl : (v.take first).length = first := by simp [h]
  rw [List.take_left' hl, List.drop_left' hl]

/-- C26, as stated, fails: on `x 42 y`, `erase(0, 1)` of the LumC variant
returns and leaves `y` alone, so the token `42` at position `end` is removed
too and `size()` drops by 2, not by `end - start = 1`; the range `[0, 1)` would
leave `42 y`. -/
theorem C26_end_is_not_exclusive :
    (0 ≤ 1 ∧ 1 < streamX42Y.size) ∧
    (streamX42Y.eraseRange 0 1).1 = .returns () ∧
    (streamX42Y.eraseRange 0 1).2.tokens = [tokY] ∧
    vectorEraseRange streamX42Y.tokens 0 1 = [tok42, tokY] ∧
    (streamX42Y.eraseRange 0 1).2.size + (1 - 0) ≠ streamX42Y.size := by
  decide

/-- C26, amended: `erase(start, end)` of the LumC variant treats `start` and
`end` both as inclusive. For `start <= end < size()` it returns, the token at
position `end` is removed with the others of `[start, end]`, position `start`
then holds what was at `end + 1` (nothing, if `end` was the last position), and
`size()` drops by `end - start + 1`, one more than the header announces. -/
theorem C26_end_is_inclusive (s : TokenStream) (start stop : Nat)
    (hle : start ≤ stop) (hstop : stop < s.size) :
    (s.eraseRange start stop).1 = .returns () ∧
    (s.eraseRange start stop).2.tokens = vectorEraseRange s.tokens start (stop + 1) ∧
    (s.eraseRange start stop).2.tokens[start]? = s.tokens[stop + 1]? ∧
    (s.eraseRange start stop).2.size + (stop - start) + 1 = s.size ∧
    (s.eraseRange start stop).2.size + (stop - start) ≠ s.size := by
  unfold TokenStream.size at *
  have hr : s.eraseRange start stop =
      (.returns (), { s with tokens := vectorEraseRange s.tokens start (stop + 1) }) := by
    unfold TokenStream.eraseRange
    rw [if_neg (by omega), if_neg (by omega)]
  have hlen := length_vectorEraseRange s.tokens start (stop + 1) (by omega) (by omega)
  rw [hr]
  refine ⟨rfl, rfl, ?_, ?_, ?_⟩
  · have := getElem?_vectorEraseRange_ge s.tokens start (stop + 1) start (Nat.le_refl _)
      (by omega) (by omega)
    have he : start + (stop + 1 - start) = stop + 1 := by omega
    rw [he] at this
    exact this
  · simp only
    omega
  · simp only
    omega

/-- C26, amended, at a concrete input: `erase(0, 1)` on `x 42 y` puts `y`, the
token that was at position 2, at position 0. -/
theorem C26_end_is_inclusive_witness :
    (streamX42Y.eraseRange 0 1).2.tokens[0]? = streamX42Y.tokens[2]? :=
  (C26_end_is_inclusive streamX42Y 0 1 (by decide) (by decide)).2.2.1

/-- C30: for `start <= end` with `end + 1 < size()`, `erase(start, end)` of the
LumC variant and `erase(start, end + 1)` of the earlier variant both return and
leave the same tokens; for `start <= end < size()` the earlier `erase(start,
end)` removes `end - start` tokens and the LumC one `end - start + 1`; and the
two throw `std::out_of_range` on the same pairs `(start, end)`. -/
theorem C30_erase_range_variants (l : List Token) (c c' start stop : Nat) :
    (start ≤ stop → stop + 1 < l.length →
      (TokenStream.eraseRange ⟨l, c⟩ start stop).1 = .returns () ∧
      (Legacy.TokenStream.eraseRange ⟨l, c'⟩ start (stop + 1)).1 = .returns () ∧
      (TokenStream.eraseRange ⟨l, c⟩ start stop).2.tokens =
        (Legacy.TokenStream.eraseRange ⟨l, c'⟩ start (stop + 1)).2.tokens) ∧
    (start ≤ stop → stop < l.length →
      (Legacy.TokenStream.eraseRange ⟨l, c'⟩ start stop).1 = .returns () ∧
      (Legacy.TokenStream.eraseRange ⟨l, c'⟩ start stop).2.size + (stop - start) = l.length ∧
      (TokenStream.eraseRange ⟨l, c⟩ start stop).1 = .returns () ∧
      (TokenStream.eraseRange ⟨l, c⟩ start stop).2.size + (stop - start + 1) = l.length) ∧
    ((TokenStream.eraseRange ⟨l, c⟩ start stop).1 = .throws .outOfRange ↔
      (Legacy.TokenStream.eraseRange ⟨l, c'⟩ start stop).1 = .throws .outOfRange) := by
  refine ⟨fun hle hstop => ?_, fun hle hstop => ?_, ?_⟩
  · unfold TokenStream.eraseRange Legacy.TokenStream.eraseRange
    simp only
    rw [if_neg (by omega), if_neg (by omega), if_neg (by omega), if_neg (by omega)]
    exact ⟨rfl, rfl, rfl⟩
  · unfold TokenStream.eraseRange Legacy.TokenStream.eraseRange
    simp only
    rw [if_neg (by omega), if_neg (by omega), if_neg (by omega), if_neg (by omega)]
    have h1 := length_vectorEraseRange l start stop hle (by omega)
    have h2 := length_vectorEraseRange l start (stop + 1) (by omega) (by omega)
    refine ⟨rfl, ?_, rfl, ?_⟩
    · exact h1
    · simp only [TokenStream.size]
      omega
  · unfold TokenStream.eraseRange Legacy.TokenStream.eraseRange
    simp only
    by_cases hb : start ≥ l.length ∨ stop ≥ l.length
    · rw [if_pos hb, if_pos hb]
    · rw [if_neg hb, if_neg hb]
      constructor
      · intro h
        split at h <;> simp at h
      · intro h
        split at h <;> simp at h

/-- C30 at concrete inputs: on `x 42 y`, the LumC `erase(0, 0)` and the earlier
`erase(0, 1)` both leave `42 y`. -/
theorem C30_erase_range_variants_witness :
    (TokenStream.eraseRange ⟨[tokX, tok42, tokY], 0⟩ 0 0).2.tokens =
      (Legacy.TokenStream.eraseRange ⟨[tokX, tok42, tokY], 0⟩ 0 1).2.tokens :=
  ((C30_erase_range_variants [tokX, tok42, tokY] 0 0 0 0).1 (by decide) (by decide)).2.2

end LumC

namespace Legacy

open LumC

theorem TokenStream.replaceRange_of_read (s : TokenStream) (start stop : Nat)
    (token : TokenArg) (t : Token) (hle : start ≤ stop) (hstop : stop < s.tokens.length)
    (hread : token.read (vectorEraseRange s.tokens start stop) = some t) :
    s.replaceRange start stop token =
      (.returns (), { s with tokens := s.tokens.take start ++ t :: s.tokens.drop stop }) := by
  unfold TokenStream.replaceRange
  rw [if_neg (by omega), if_neg (by omega)]
  simp only [hread]
  rw [vectorInsert_vectorEraseRange s.tokens start stop t (by omega)]

/-- For `start <= end < size()` and a token that is not an element of the
stream, `replace(start, end, token)` of the earlier variant returns and gives
`old[0, start) ++ [token] ++ old[end, size())`, of size `size() - (end - start)
+ 1`, with the cursor unchanged; when `start >= size()` or `end >= size()` it
throws `std::out_of_range`, whatever the argument refers to, and the stream is
unchanged. -/
theorem TokenStream.replaceRange_object (s : TokenStream) (start stop : Nat) (t : Token)
    (token : TokenArg) :
    (start ≤ stop → stop < s.size →
      (s.replaceRange start stop (.object t)).1 = .returns () ∧
      (s.replaceRange start stop (.object t)).2.tokens =
        s.tokens.take start ++ [t] ++ s.tokens.drop stop ∧
      (s.replaceRange start stop (.object t)).2.size = s.size - (stop - start) + 1 ∧
      (s.replaceRange start stop (.object t)).2.index = s.index) ∧
    (start ≥ s.size ∨ stop ≥ s.size →
      s.replaceRange start stop token = (.throws .outOfRange, s)) := by
  unfold TokenStream.size
  constructor
  · intro hle hstop
    rw [TokenStream.replaceRange_of_read s start stop (.object t) t hle hstop rfl]
    refine ⟨rfl, by simp, ?_, rfl⟩
    simp
    omega
  · intro h
    unfold TokenStream.replaceRange
    rw [if_pos h]

/-- C25 fails on the code: on `x 42 y`, in the call `replace(0, 1, ts[1])` the
token given is `42`, the element at position 1, and `0 <= 1 < size()`. The
result should be `old[0, 0) ++ [42] ++ old[1, 3)`, that is `42 42 y`; the call
returns with `y 42 y`, because the argument is read after the erase has moved
`y` into position 1. With the same token passed as an object of its own the
result is `42 42 y`. -/
theorem C25_replaceRange_reads_argument_after_erase :
    (0 ≤ 1 ∧ 1 < streamX42Y.size) ∧
    TokenArg.read streamX42Y.tokens (.element 1) = some tok42 ∧
    streamX42Y.replaceRange 0 1 (.element 1) =
      (.returns (), { tokens := [tokY, tok42, tokY], index := 0 }) ∧
    streamX42Y.tokens.take 0 ++ [tok42] ++ streamX42Y.tokens.drop 1 = [tok42, tok42, tokY] ∧
    (streamX42Y.replaceRange 0 1 (.element 1)).2.tokens ≠
      streamX42Y.tokens.take 0 ++ [tok42] ++ streamX42Y.tokens.drop 1 ∧
    streamX42Y.replaceRange 0 1 (.object tok42) =
      (.returns (), { tokens := [tok42, tok42, tokY], index := 0 }) := by
  decide

end Legacy

/-! ## The tail under the exclusive-end operations, and reads past the end -/

namespace Legacy

open LumC

theorem getLast?_take_append_drop (v : List Token) (pre : List Token) (last : Nat)
    (h : last < v.length) : (pre ++ v.drop last).getLast? = v.getLast? := by
  have hne : v.drop last ≠ [] := by
    intro hc
    have := congrArg List.length hc
    simp at this
    omega
  rw [List.getLast?_append_of_ne_nil _ hne]
  have hsplit : v = v.take last ++ v.drop last := (List.take_append_drop last v).symm
  conv_rhs => rw [hsplit]
  rw [List.getLast?_append_of_ne_nil _ hne]

/-- C31: in the earlier variant a call `erase(start, end)` that returns keeps
the last token of the stream last, since what follows position `start`
afterwards is `old[end, size())`, which is not empty; `end == size()` is
rejected with `std::out_of_range`. After a call `replace(start, end, token)`
that returns, the same tail `old[end, size())` follows the new token, and the
last token is the old last token. -/
theorem C31_tail_survives (s : TokenStream) (start stop : Nat) (token : TokenArg) :
    ((s.eraseRange start stop).1 = .returns () →
      start ≤ stop ∧ stop < s.size ∧
      (s.eraseRange start stop).2.tokens.drop start = s.tokens.drop stop ∧
      s.tokens.drop stop ≠ [] ∧
      (s.eraseRange start stop).2.tokens.getLast? = s.tokens.getLast?) ∧
    ((s.replaceRange start stop token).1 = .returns () →
      start ≤ stop ∧ stop < s.size ∧
      (s.replaceRange start stop token).2.tokens.drop (start + 1) = s.tokens.drop stop ∧
      s.tokens.drop stop ≠ [] ∧
      (s.replaceRange start stop token).2.tokens.getLast? = s.tokens.getLast?) ∧
    s.eraseRange start s.size = (.throws .outOfRange, s) ∧
    s.replaceRange start s.size token = (.throws .outOfRange, s) := by
  unfold TokenStream.size
  have hne : ∀ {n : Nat}, n < s.tokens.length → s.tokens.drop n ≠ [] := by
    intro n hn hc
    have := congrArg List.length hc
    simp at this
    omega
  refine ⟨fun h => ?_, fun h => ?_, ?_, ?_⟩
  · unfold TokenStream.eraseRange at h ⊢
    by_cases hb : start ≥ s.tokens.length ∨ stop ≥ s.tokens.length
    · rw [if_pos hb] at h
      simp at h
    · rw [if_neg hb] at h ⊢
      by_cases hgt : start > stop
      · rw [if_pos hgt] at h
        simp at h
      · rw [if_neg hgt]
        have hl : (s.tokens.take start).length = start := by simp; omega
        refine ⟨by omega, by omega, ?_, hne (by omega), ?_⟩
        · simp only [vectorEraseRange]
          rw [List.drop_left' hl]
        · simp only [vectorEraseRange]
          exact getLast?_take_append_drop s.tokens _ stop (by omega)
  · by_cases hb : start ≥ s.tokens.length ∨ stop ≥ s.tokens.length
    · unfold TokenStream.replaceRange at h
      rw [if_pos hb] at h
      simp at h
    · by_cases hgt : start > stop
      · unfold TokenStream.replaceRange at h
        rw [if_neg hb, if_pos hgt] at h
        simp at h
      · cases hread : token.read (vectorEraseRange s.tokens start stop) with
        | none =>
          unfold TokenStream.replaceRange at h
          rw [if_neg hb, if_neg hgt] at h
          simp [hread] at h
        | some t =>
          rw [TokenStream.replaceRange_of_read s start stop token t (by omega) (by omega)
            hread]
          simp only
          have hl : (s.tokens.take start ++ [t]).length = start + 1 := by simp; omega
          have hcons : s.tokens.take start ++ t :: s.tokens.drop stop =
              (s.tokens.take start ++ [t]) ++ s.tokens.drop stop := by simp
          refine ⟨by omega, by omega, ?_, hne (by omega), ?_⟩
          · rw [hcons, List.drop_left' hl]
          · rw [hcons]
            exact getLast?_take_append_drop s.tokens _ stop (by omega)
  · unfold TokenStream.eraseRange
    rw [if_pos (Or.inr (Nat.le_refl _))]
  · unfold TokenStream.replaceRange
    rw [if_pos (Or.inr (Nat.le_refl _))]

/-- C31 at concrete inputs: on `x 42 y`, after `erase(0, 2)` and after
`replace(0, 2, x)` the last token is still `y`. -/
theorem C31_tail_survives_witness :
    (streamX42Y.eraseRange 0 2).2.tokens.getLast? = streamX42Y.tokens.getLast? ∧
    (streamX42Y.replaceRange 0 2 (.object tokX)).2.tokens.getLast? =
      streamX42Y.tokens.getLast? :=
  ⟨((C31_tail_survives streamX42Y 0 2 (.object tokX)).1 (by decide)).2.2.2.2,
    ((C31_tail_survives streamX42Y 0 2 (.object tokX)).2.1 (by decide)).2.2.2.2⟩

end Legacy

namespace LumC

/-- C32: whatever the cursor is, also beyond `size()`: when `cursor >= size()`,
`eof()` is true and `consume()` and `peek(0)` throw `std::out_of_range`; and
when `consume()`, or `peek(k)` with `cursor + k` not overflowing, returns a
token, the position read is below `size()` and the token is the one stored
there. The cursor is a `size_t`. -/
theorem C32_reads_stay_in_bounds (s : TokenStream) (k : Nat) (hidx : s.index < SIZE_RANGE) :
    (s.index ≥ s.size →
      s.eof = true ∧
      s.consume = (.throws .outOfRange, s) ∧
      s.peek 0 = (.throws .outOfRange, s)) ∧
    (∀ t, s.consume.1 = .returns t → s.index < s.size ∧ s.tokens[s.index]? = some t) ∧
    (∀ t, s.index + k < SIZE_RANGE → (s.peek k).1 = .returns t →
      s.index + k < s.size ∧ s.tokens[s.index + k]? = some t) := by
  unfold TokenStream.size
  refine ⟨fun h => ⟨?_, TokenStream.consume_of_ge s h, ?_⟩, fun t ht => ?_, fun t hk ht => ?_⟩
  · simp [TokenStream.eof, h]
  · have h0 : sizeAdd s.index 0 = s.index := sizeAdd_of_lt (by omega)
    unfold TokenStream.peek
    rw [dif_pos (by omega)]
  · unfold TokenStream.consume at ht
    by_cases hge : s.index ≥ s.tokens.length
    · rw [dif_pos hge] at ht
      simp at ht
    · rw [dif_neg hge] at ht
      have hlt : s.index < s.tokens.length := by omega
      simp only [Outcome.returns.injEq, List.get_eq_getElem] at ht
      exact ⟨hlt, by rw [List.getElem?_eq_getElem hlt, ht]⟩
  · have hadd : sizeAdd s.index k = s.index + k := sizeAdd_of_lt hk
    unfold TokenStream.peek at ht
    by_cases hge : sizeAdd s.index k ≥ s.tokens.length
    · rw [dif_pos hge] at ht
      simp at ht
    · rw [dif_neg hge] at ht
      have hlt : s.index + k < s.tokens.length := by omega
      simp only [Outcome.returns.injEq, List.get_eq_getElem, hadd] at ht
      exact ⟨hlt, by rw [List.getElem?_eq_getElem hlt, ht]⟩

/-- C32 at a concrete input: after `erase(0)` on the stream holding `x` with
the cursor at the end, the cursor 1 is beyond `size()` 0; there `eof()` is true
and `consume()` and `peek(0)` throw. -/
theorem C32_reads_stay_in_bounds_witness :
    (streamXAtEnd.erase 0).2.index > (streamXAtEnd.erase 0).2.size ∧
    (streamXAtEnd.erase 0).2.eof = true ∧
    (streamXAtEnd.erase 0).2.consume = (.throws .outOfRange, (streamXAtEnd.erase 0).2) ∧
    (streamXAtEnd.erase 0).2.peek 0 = (.throws .outOfRange, (streamXAtEnd.erase 0).2) :=
  ⟨by decide,
    (C32_reads_stay_in_bounds (streamXAtEnd.erase 0).2 0 (by decide)).1 (by decide)⟩

/-! ## Walking the stream with a view -/

theorem sizeSub_sizeAdd (a b : Nat) (ha : a < SIZE_RANGE) : sizeSub (sizeAdd a b) b = a := by
  unfold sizeSub sizeAdd SIZE_RANGE at *
  omega

theorem traverse_from (s : TokenStream) (hsize : s.tokens.length < SIZE_RANGE) (d : Nat) :
    ∀ (i fuel : Nat), i + d = s.tokens.length → fuel > d →
      traverse fuel s { index := i } = some ((s.tokens.drop i).map Outcome.returns) := by
  induction d with
  | zero =>
    intro i fuel hi hfuel
    obtain ⟨f, rfl⟩ : ∃ f, fuel = f + 1 := ⟨fuel - 1, by omega⟩
    have hi' : i = s.tokens.length := by omega
    unfold traverse
    simp [TokenStream.iterator.opNe, TokenStream.endIt, TokenStream.size, hi']
  | succ d ih =>
    intro i fuel hi hfuel
    obtain ⟨f, rfl⟩ : ∃ f, fuel = f + 1 := ⟨fuel - 1, by omega⟩
    have hlt : i < s.tokens.length := by omega
    have hne : TokenStream.iterator.opNe { index := i } s.endIt = true := by
      simp [TokenStream.iterator.opNe, TokenStream.endIt, TokenStream.size]
      omega
    have hinc : TokenStream.iterator.inc { index := i } = { index := i + 1 } := by
      unfold TokenStream.iterator.inc
      rw [sizeAdd_of_lt (by simp only; omega)]
    have hderef : (TokenStream.iterator.deref { index := i } s).1 =
        .returns (s.tokens.get ⟨i, hlt⟩) := by
      unfold TokenStream.iterator.deref
      rw [TokenStream.tokenAt_of_lt s i hlt]
    have hd : s.tokens.drop i = s.tokens[i] :: s.tokens.drop (i + 1) :=
      List.drop_eq_getElem_cons hlt
    unfold traverse
    rw [if_pos hne, hinc, ih (i + 1) f (by omega) (by omega), hderef, hd]
    rfl

/-- C33: for a stream of size `n`, `begin() == end()` exactly when `n == 0`;
the loop from `begin()` with `++` while the view differs from `end()` ends
after `n` steps (the condition is tested `n + 1` times), every dereference in
it returns, and the `i`-th returns `tokens[i]`; and `++` followed by `--`, as
well as `+= k` followed by `-= k`, computed modulo `2 ^ 64`, give back a view
equal to the one started from. The number of tokens and the index of a view are
`size_t` values. -/
theorem C33_iterator_traversal (s : TokenStream) (it : TokenStream.iterator) (k : Nat)
    (hsize : s.size < SIZE_RANGE) (hit : it.index < SIZE_RANGE) :
    (s.begin.opEq s.endIt = true ↔ s.size = 0) ∧
    (∀ fuel, fuel > s.size →
      traverse fuel s s.begin = some (s.tokens.map Outcome.returns)) ∧
    traverse s.size s s.begin = none ∧
    (s.tokens.map Outcome.returns).length = s.size ∧
    (∀ (i : Nat) (t : Token), s.tokens[i]? = some t →
      (s.tokens.map Outcome.returns)[i]? = some (Outcome.returns t)) ∧
    it.inc.dec = it ∧ it.inc.dec.opEq it = true ∧
    (it.addAssign k).subAssign k = it ∧ ((it.addAssign k).subAssign k).opEq it = true := by
  unfold TokenStream.size at *
  have hrt : ∀ n : Nat, (⟨sizeSub (sizeAdd it.index n) n⟩ : TokenStream.iterator) = it := by
    intro n
    rw [sizeSub_sizeAdd it.index n hit]
  have hstuck : ∀ (d i : Nat), i + d ≤ s.tokens.length → d ≤ s.tokens.length →
      traverse d s { index := i } = none := by
    intro d
    induction d with
    | zero => intro i _ _; rfl
    | succ d ih =>
      intro i hi hd
      have hne : TokenStream.iterator.opNe { index := i } s.endIt = true := by
        simp [TokenStream.iterator.opNe, TokenStream.endIt, TokenStream.size]
        omega
      have hinc : TokenStream.iterator.inc { index := i } = { index := i + 1 } := by
        unfold TokenStream.iterator.inc
        rw [sizeAdd_of_lt (by simp only; omega)]
      unfold traverse
      rw [if_pos hne, hinc, ih (i + 1) (by omega) (by omega)]
      rfl
  refine ⟨?_, fun fuel hfuel => ?_, ?_, by simp, fun i t hi => ?_, ?_, ?_, ?_, ?_⟩
  · simp only [TokenStream.iterator.opEq, TokenStream.begin, TokenStream.endIt,
      TokenStream.size, decide_eq_true_eq]
    exact eq_comm
  · have := traverse_from s hsize s.tokens.length 0 fuel (by omega) hfuel
    simpa [TokenStream.begin] using this
  · exact hstuck s.tokens.length 0 (by omega) (Nat.le_refl _)
  · simp [hi]
  · exact hrt 1
  · have h1 : it.inc.dec = it := hrt 1
    rw [h1]
    simp [TokenStream.iterator.opEq]
  · exact hrt k
  · have hk : (it.addAssign k).subAssign k = it := hrt k
    rw [hk]
    simp [TokenStream.iterator.opEq]

/-- C33 at concrete inputs: the test `Iterator`. Walking `x 42` from `begin()`
dereferences to `x` and then `42`; and from the view at the largest index,
`++` wraps to 0 and `--` comes back. -/
theorem C33_iterator_traversal_witness :
    traverse 3 streamX42At1 streamX42At1.begin = some [.returns tokX, .returns tok42] ∧
    (TokenStream.iterator.mk (2 ^ 64 - 1)).inc.dec = TokenStream.iterator.mk (2 ^ 64 - 1) :=
  ⟨(C33_iterator_traversal streamX42At1 ⟨2 ^ 64 - 1⟩ 0 (by decide) (by decide)).2.1 3
      (by decide),
    (C33_iterator_traversal streamX42At1 ⟨2 ^ 64 - 1⟩ 0 (by decide) (by decide)).2.2.2.2.2.1⟩

end LumC
